import Mathlib

/-!
# ml_musings: label-arity check and nearest-neighbour prediction

A shallow embedding of `src/goal_of_classification.cpp` and
`src/binary_classification.cpp`.

* `float` is IEEE-754 binary32 (`Binary32` below): every C++ operation
  (`-`, `*`, `+=`, `std::sqrt`, `<`) is one correctly rounded binary32
  operation in round-to-nearest-even, without contraction of `a*b+c`.
* `Label = int` only ever is copied and compared, so it is an `Int`.
* `std::set<Label>` is a strictly increasing list of labels.
* `throw std::invalid_argument(msg)` is `Except.error (.invalid_argument msg)`;
  an unchecked `operator[]` read past the end of a vector has no defined
  result in C++ and is `Except.error .out_of_range`.
* `predict_label_squared` and `truncate_features` are not in the source:
  they are the variant and the dataset that two of the claims compare
  `predict_label` with.
-/

namespace MlMusings

/-! ## IEEE-754 binary32 -/

/-- A binary32 datum: NaN, a signed infinity, or the signed value
`m * 2 ^ e`. The data of the format are the `finite` values with
`m < 2 ^ 24`, `-149 ≤ e ≤ 104` and (`2 ^ 23 ≤ m` or `e = -149`). -/
inductive Binary32 where
  | nan : Binary32
  | inf (neg : Bool) : Binary32
  | finite (neg : Bool) (m : Nat) (e : Int) : Binary32
  deriving DecidableEq, Repr

namespace Binary32

/-- The values that are binary32 data (the canonical encodings). -/
def valid : Binary32 → Bool
  | nan => true
  | inf _ => true
  | finite _ m e =>
    decide (m < 2 ^ 24) && decide (-149 ≤ e) && decide (e ≤ 104) &&
      (decide (2 ^ 23 ≤ m) || decide (e = -149))

/-- Decoding of the 32-bit interchange format: 1 sign bit, 8 exponent bits,
23 fraction bits. -/
def ofBits (bits : Nat) : Binary32 :=
  let sign := decide (bits / 2 ^ 31 % 2 = 1)
  let expo : Nat := bits / 2 ^ 23 % 256
  let frac : Nat := bits % 2 ^ 23
  if expo = 255 then (if frac = 0 then inf sign else nan)
  else if expo = 0 then finite sign frac (-149)
  else finite sign (2 ^ 23 + frac) ((expo : Int) - 150)

/-- The number of binary digits of `n` (`fuel` bounds the count). -/
def bitLengthAux : Nat → Nat → Nat
  | 0, _ => 0
  | fuel + 1, n => if n = 0 then 0 else bitLengthAux fuel (n / 2) + 1

/-- The number of binary digits of `n`: the least `k` with `n < 2 ^ k`. -/
def bitLength (n : Nat) : Nat := bitLengthAux n n

/-- Round the exact value `(-1)^neg * m * 2^e` to binary32, to nearest, ties
to even; overflow gives an infinity, underflow is gradual. -/
def round (neg : Bool) (m : Nat) (e : Int) : Binary32 :=
  if m = 0 then finite neg 0 (-149)
  else
    let len : Int := (bitLength m : Int)
    let e1 : Int := max (e + len - 24) (-149)
    if e1 ≤ e then
      if 104 < e1 then inf neg else finite neg (m * 2 ^ (e - e1).toNat) e1
    else
      let sh := (e1 - e).toNat
      let q := m / 2 ^ sh
      let r := m % 2 ^ sh
      let half := 2 ^ (sh - 1)
      let q1 := if half < r ∨ (r = half ∧ q % 2 = 1) then q + 1 else q
      if q1 = 2 ^ 24 then
        (if 104 < e1 + 1 then inf neg else finite neg (2 ^ 23) (e1 + 1))
      else
        (if 104 < e1 then inf neg else finite neg q1 e1)

/-- The integer `(-1)^neg * m`. -/
def signed (neg : Bool) (m : Nat) : Int :=
  if neg then -(m : Int) else (m : Int)

/-- Unary minus. -/
def neg : Binary32 → Binary32
  | nan => nan
  | inf s => inf (!s)
  | finite s m e => finite (!s) m e

/-- Binary32 addition. -/
def add : Binary32 → Binary32 → Binary32
  | nan, _ => nan
  | _, nan => nan
  | inf a, inf b => if a = b then inf a else nan
  | inf a, finite _ _ _ => inf a
  | finite _ _ _, inf b => inf b
  | finite s1 m1 e1, finite s2 m2 e2 =>
    let e := min e1 e2
    let c : Int := signed s1 (m1 * 2 ^ (e1 - e).toNat) + signed s2 (m2 * 2 ^ (e2 - e).toNat)
    if c = 0 then finite (s1 && s2) 0 (-149)
    else round (decide (c < 0)) c.natAbs e

/-- Binary32 subtraction. -/
def sub (x y : Binary32) : Binary32 := add x (neg y)

/-- Binary32 multiplication. -/
def mul : Binary32 → Binary32 → Binary32
  | nan, _ => nan
  | _, nan => nan
  | inf a, inf b => inf (xor a b)
  | inf a, finite s m _ => if m = 0 then nan else inf (xor a s)
  | finite s m _, inf b => if m = 0 then nan else inf (xor s b)
  | finite s1 m1 e1, finite s2 m2 e2 => round (xor s1 s2) (m1 * m2) (e1 + e2)

/-- Digit-by-digit integer square root: with `r ^ 2 ≤ n < (r + 2 ^ k) ^ 2`
on entry, the result is the largest `s` with `s ^ 2 ≤ n`. -/
def isqrtAux : Nat → Nat → Nat → Nat
  | 0, _, r => r
  | k + 1, n, r =>
    if (r + 2 ^ k) * (r + 2 ^ k) ≤ n then isqrtAux k n (r + 2 ^ k) else isqrtAux k n r

/-- The largest `s` with `s ^ 2 ≤ n`. -/
def isqrt (n : Nat) : Nat := isqrtAux ((bitLength n + 1) / 2) n 0

/-- Binary32 square root (`std::sqrt` on `float`), correctly rounded: the
integer square root of the significand scaled by `2 ^ 52` has at least 27
bits, and one more bit below it records whether the root is inexact. -/
def sqrt : Binary32 → Binary32
  | nan => nan
  | inf s => if s then nan else inf false
  | finite s m e =>
    if m = 0 then finite s 0 (-149)
    else if s then nan
    else
      let odd := decide (e % 2 = 1)
      let m2 := (if odd then 2 * m else m) * 2 ^ 52
      let e2 : Int := (if odd then e - 1 else e) - 52
      let s0 := isqrt m2
      round false (2 * s0 + (if s0 * s0 = m2 then 0 else 1)) (e2 / 2 - 1)

/-- The comparison `x < y` of binary32: false when either side is NaN,
and the two zeros are equal. -/
def lt : Binary32 → Binary32 → Bool
  | nan, _ => false
  | _, nan => false
  | inf a, inf b => a && !b
  | inf a, finite _ _ _ => a
  | finite _ _ _, inf b => !b
  | finite s1 m1 e1, finite s2 m2 e2 =>
    let e := min e1 e2
    decide (signed s1 (m1 * 2 ^ (e1 - e).toNat) < signed s2 (m2 * 2 ^ (e2 - e).toNat))

/-- The literal `0.0f`. -/
def zero : Binary32 := finite false 0 (-149)

/-- The largest finite binary32, `std::numeric_limits<float>::max()`
(bit pattern `0x7F7FFFFF`). -/
def max_float : Binary32 := finite false (2 ^ 24 - 1) 104

/-- The rational number that the finite datum `finite s m e` stands for. -/
def fval (s : Bool) (m : Nat) (e : Int) : ℚ := (signed s m : ℚ) * 2 ^ e

end Binary32

/-! ## Data model (`goal_of_classification.cpp`, lines 10-23) -/

/-- The type `FeatureVector = std::vector<float>`. -/
abbrev FeatureVector := List Binary32

/-- The type `Label = int`. -/
abbrev Label := Int

/-- The struct `DataPoint`. -/
structure DataPoint where
  features : FeatureVector
  label : Label
  deriving DecidableEq, Repr

/-- The type `TrainingData = std::vector<DataPoint>`. -/
abbrev TrainingData := List DataPoint

/-- What a call can end in other than a returned value. -/
inductive Failure where
  | invalid_argument (what : String) : Failure
  | out_of_range : Failure
  deriving DecidableEq, Repr

/-! ## `is_binary_classification` -/

/-- The call `std::set<Label>::insert`: the set is kept as a strictly
increasing list, and a key that is already present is not inserted again. -/
def set_insert : List Label → Label → List Label
  | [], x => [x]
  | y :: ys, x =>
    if x < y then x :: y :: ys
    else if x = y then y :: ys
    else y :: set_insert ys x

/-- The set `unique_labels` after the loop of `is_binary_classification`. -/
def unique_labels (training_data : TrainingData) : List Label :=
  training_data.foldl (fun s data_point => set_insert s data_point.label) []

/-- The function `is_binary_classification`
(`goal_of_classification.cpp` 53-60, `binary_classification.cpp` 50-56). -/
def is_binary_classification (training_data : TrainingData) : Bool :=
  decide ((unique_labels training_data).length = 2)

/-! ## `predict_label` -/

/-- The inner loop of `predict_label` (lines 77-82), entered at index `i`
with `remaining` iterations left: `distance += (a[i] - b[i]) * (a[i] - b[i])`.
A read past the end of either vector ends the run. -/
def sum_loop (new_features features : FeatureVector) :
    Nat → Nat → Binary32 → Except Failure Binary32
  | 0, _, distance => .ok distance
  | remaining + 1, i, distance =>
    match new_features[i]?, features[i]? with
    | some a, some b =>
      sum_loop new_features features remaining (i + 1)
        (Binary32.add distance (Binary32.mul (Binary32.sub a b) (Binary32.sub a b)))
    | _, _ => .error .out_of_range

/-- The value of `distance` at the test of line 84: the sum of squared
differences over the indices of `new_features`, then `std::sqrt`. -/
def euclidean_distance (new_features features : FeatureVector) : Except Failure Binary32 :=
  match sum_loop new_features features new_features.length 0 Binary32.zero with
  | .ok distance => .ok (Binary32.sqrt distance)
  | .error f => .error f

/-- The outer loop of `predict_label` (lines 75-88) from the current
`min_distance` and `predicted_label`, then the `return` of line 90. -/
def scan (new_features : FeatureVector) : TrainingData → Binary32 → Label → Except Failure Label
  | [], _, predicted_label => .ok predicted_label
  | data_point :: rest, min_distance, predicted_label =>
    match euclidean_distance new_features data_point.features with
    | .ok distance =>
      if Binary32.lt distance min_distance then scan new_features rest distance data_point.label
      else scan new_features rest min_distance predicted_label
    | .error f => .error f

/-- The function `predict_label` (`goal_of_classification.cpp` 63-91). -/
def predict_label (new_features : FeatureVector) (training_data : TrainingData) :
    Except Failure Label :=
  match training_data with
  | [] => .error (.invalid_argument "Training data is empty")
  | first :: _ =>
    if new_features.isEmpty || new_features.length != first.features.length then
      .error (.invalid_argument "Feature vector size mismatch")
    else
      scan new_features training_data Binary32.max_float (-1)

/-! ## The data of `main` -/

/-- A decimal literal with suffix `f` whose value is `num / den`: the
nearest binary32. The quotient is taken with 200 fraction bits and one more
bit that records a non-zero remainder. -/
def literal (num den : Nat) : Binary32 :=
  Binary32.round false
    (2 * (num * 2 ^ 200 / den) + (if num * 2 ^ 200 % den = 0 then 0 else 1)) (-201)

/-- The vector `fruit_training_data` of `main` (lines 95-101). -/
def fruit_training_data : TrainingData :=
  [ ⟨[literal 150 1, literal 1 1, literal 1 1], 0⟩,
    ⟨[literal 200 1, literal 0 1, literal 0 1], 1⟩,
    ⟨[literal 250 1, literal 2 1, literal 2 1], 2⟩,
    ⟨[literal 160 1, literal 1 1, literal 1 1], 0⟩,
    ⟨[literal 210 1, literal 0 1, literal 0 1], 1⟩ ]

/-- The vector `flower_training_data` of `main` (lines 104-110). -/
def flower_training_data : TrainingData :=
  [ ⟨[literal 51 10, literal 35 10, literal 14 10, literal 2 10], 0⟩,
    ⟨[literal 70 10, literal 32 10, literal 47 10, literal 14 10], 1⟩,
    ⟨[literal 63 10, literal 33 10, literal 60 10, literal 25 10], 2⟩,
    ⟨[literal 49 10, literal 31 10, literal 15 10, literal 1 10], 0⟩,
    ⟨[literal 67 10, literal 31 10, literal 44 10, literal 14 10], 1⟩ ]

/-- The vector `new_fruit` of `main` (line 132). -/
def new_fruit : FeatureVector := [literal 180 1, literal 1 1, literal 1 1]

/-! ## Inputs used as examples -/

deriving instance DecidableEq for Except

/-- The query `{1e20f}`. -/
def far_query : FeatureVector := [literal (10 ^ 20) 1]

/-- One training point `{0.0f}` with label `0`. -/
def origin_data : TrainingData := [⟨[literal 0 1], 0⟩]

/-- The query `{1e20f, 0.0f}`. -/
def far_query2 : FeatureVector := [literal (10 ^ 20) 1, literal 0 1]

/-- Two training points `{0.0f, 0.0f}` and `{1.0f, 1.0f}` with labels `1` and `2`. -/
def near_origin_data : TrainingData :=
  [⟨[literal 0 1, literal 0 1], 1⟩, ⟨[literal 1 1, literal 1 1], 2⟩]

/-- Two training points `{0.0f}` and `{0.0f}` with labels `7` and `9`. -/
def tied_data : TrainingData := [⟨[literal 0 1], 7⟩, ⟨[literal 0 1], 9⟩]

/-- The query `{1.0f, 2.0f}`. -/
def short_query : FeatureVector := [literal 1 1, literal 2 1]

/-- Two data points `({0.0f, 0.0f}, 1)` and `({0.0f}, 2)`: the first has two
features, the second only one. -/
def ragged_data : TrainingData :=
  [⟨[literal 0 1, literal 0 1], 1⟩, ⟨[literal 0 1], 2⟩]

/-- The dataset of the claim on truncation (C15): every feature vector cut
down to its first `n` coordinates, the labels kept. -/
def truncate_features (n : Nat) (training_data : TrainingData) : TrainingData :=
  training_data.map fun p => ⟨p.features.take n, p.label⟩

/-- Three data points with two, three and four features, for the
two-element query `short_query`. -/
def long_data : TrainingData :=
  [⟨[literal 1 1, literal 1 1], 1⟩,
   ⟨[literal 1 1, literal 2 1, literal 300 1], 2⟩,
   ⟨[literal 5 1, literal 5 1, literal 0 1, literal 7 1], 3⟩]

namespace Binary32

/-- The data that are neither NaN nor an infinity. -/
def isFinite : Binary32 → Bool
  | finite _ _ _ => true
  | _ => false

end Binary32

/-- The query `{0.0f}`. -/
def zero_query : FeatureVector := [literal 0 1]

/-- The data points `({1e-30f}, 1)` and `({0.0f}, 2)`. -/
def tiny_data : TrainingData := [⟨[literal 1 (10 ^ 30)], 1⟩, ⟨[literal 0 1], 2⟩]

/-- The query `{+inf}` (`std::numeric_limits<float>::infinity()`). -/
def inf_query : FeatureVector := [Binary32.inf false]

/-- The data point `({+inf}, 5)`. -/
def inf_data : TrainingData := [⟨[Binary32.inf false], 5⟩]

/-! ## The variant without the square root -/

/-- Follows the words of the claim on squared distances (C13), not the
source: the sum of squared per-dimension differences, without the square
root. -/
def squared_distance (new_features features : FeatureVector) : Except Failure Binary32 :=
  sum_loop new_features features new_features.length 0 Binary32.zero

/-- Follows the words of the claim on squared distances (C13), not the
source: the loop of `scan` on the squared distances, keeping the first
strict minimum. -/
def scan_squared (new_features : FeatureVector) :
    TrainingData → Binary32 → Label → Except Failure Label
  | [], _, predicted_label => .ok predicted_label
  | data_point :: rest, min_distance, predicted_label =>
    match squared_distance new_features data_point.features with
    | .ok distance =>
      if Binary32.lt distance min_distance then
        scan_squared new_features rest distance data_point.label
      else scan_squared new_features rest min_distance predicted_label
    | .error f => .error f

/-- Follows the words of the claim on squared distances (C13), not the
source: `predict_label` with line 83, `distance = std::sqrt(distance)`,
left out. -/
def predict_label_squared (new_features : FeatureVector) (training_data : TrainingData) :
    Except Failure Label :=
  match training_data with
  | [] => .error (.invalid_argument "Training data is empty")
  | first :: _ =>
    if new_features.isEmpty || new_features.length != first.features.length then
      .error (.invalid_argument "Feature vector size mismatch")
    else
      scan_squared new_features training_data Binary32.max_float (-1)

/-- The query `{0.0f, 0.0f}`. -/
def origin_query : FeatureVector := [literal 0 1, literal 0 1]

/-- The data points `({1.0f, 0.0003662109375f}, 1)` and `({1.0f, 0.0f}, 2)`;
the second coordinate of the first is `3 * 2^-13`. -/
def close_data : TrainingData :=
  [⟨[literal 1 1, literal 3 8192], 1⟩, ⟨[literal 1 1, literal 0 1], 2⟩]

namespace Binary32

/-- The quotient of `n` by `2 ^ sh` rounded to nearest, ties to even: the
rounding step of `round`. -/
def rne (n sh : Nat) : Nat :=
  if 2 ^ (sh - 1) < n % 2 ^ sh ∨ (n % 2 ^ sh = 2 ^ (sh - 1) ∧ n / 2 ^ sh % 2 = 1) then
    n / 2 ^ sh + 1
  else n / 2 ^ sh

/-- The last step of `round`: a significand that reached `2 ^ 24` is
renormalised, and an exponent above 104 gives an infinity. -/
def pack (s : Bool) (q : Nat) (e1 : Int) : Binary32 :=
  if q = 2 ^ 24 then (if 104 < e1 + 1 then inf s else finite s (2 ^ 23) (e1 + 1))
  else (if 104 < e1 then inf s else finite s q e1)

/-- The number that `sqrt` rounds for the scaled significand `n`: twice
the integer square root, plus one when the root is inexact. -/
def sticky (n : Nat) : Nat := 2 * isqrt n + (if isqrt n * isqrt n = n then 0 else 1)

/-- The scaled significand of `sqrt` for `m * 2 ^ e`. -/
def sqrtM (m : Nat) (e : Int) : Nat := (if e % 2 = 1 then 2 * m else m) * 2 ^ 52

/-- The exponent at which `sqrt` rounds for `m * 2 ^ e`. -/
def sqrtE (e : Int) : Int := ((if e % 2 = 1 then e - 1 else e) - 52) / 2 - 1

/-- The data that are not below zero: NaN, `+inf` and the finite data
without sign. -/
def nonneg : Binary32 → Bool
  | nan => true
  | inf s => !s
  | finite s _ _ => !s

end Binary32

/-- One data point `({18446742974197923840.0f, 4503599627370496.0f}, 3)`:
the coordinates are `2^64 - 2^40` and `2^52`, and the sum of their squares
is `FLT_MAX`. -/
def edge_data : TrainingData := [⟨[literal (2 ^ 64 - 2 ^ 40) 1, literal (2 ^ 52) 1], 3⟩]

set_option maxRecDepth 10000

/-! ## Binary32 arithmetic -/

namespace Binary32

theorem bitLengthAux_zero (fuel : Nat) : bitLengthAux fuel 0 = 0 := by
  cases fuel <;> simp [bitLengthAux]

theorem bitLengthAux_spec (fuel n : Nat) (h : n ≤ fuel) :
    n < 2 ^ bitLengthAux fuel n ∧ (n ≠ 0 → 2 ^ (bitLengthAux fuel n - 1) ≤ n) := by
  induction fuel generalizing n with
  | zero =>
    obtain rfl : n = 0 := by omega
    simp [bitLengthAux]
  | succ fuel ih =>
    by_cases hn : n = 0
    · subst hn
      simp [bitLengthAux]
    · have hle : n / 2 ≤ fuel := by omega
      obtain ⟨h1, h2⟩ := ih (n / 2) hle
      simp only [bitLengthAux, hn, if_false, Nat.add_sub_cancel]
      constructor
      · rw [pow_succ]
        omega
      · intro _
        by_cases h0 : n / 2 = 0
        · rw [h0, bitLengthAux_zero]
          simp
          omega
        · have h3 := h2 h0
          have hk : bitLengthAux fuel (n / 2) ≠ 0 := by
            intro hk
            rw [hk] at h1
            simp at h1
            exact h0 h1
          obtain ⟨k, hk⟩ := Nat.exists_eq_succ_of_ne_zero hk
          rw [hk] at h3 ⊢
          simp only [Nat.succ_sub_one] at h3
          rw [Nat.succ_eq_add_one, pow_succ]
          omega

/-- The number `bitLength n` is the least `k` with `n < 2 ^ k`. -/
theorem bitLength_spec (n : Nat) :
    n < 2 ^ bitLength n ∧ (n ≠ 0 → 2 ^ (bitLength n - 1) ≤ n) :=
  bitLengthAux_spec n n (Nat.le_refl n)

theorem isqrtAux_spec (k n r : Nat) (h1 : r * r ≤ n) (h2 : n < (r + 2 ^ k) * (r + 2 ^ k)) :
    isqrtAux k n r * isqrtAux k n r ≤ n ∧
      n < (isqrtAux k n r + 1) * (isqrtAux k n r + 1) := by
  induction k generalizing r with
  | zero => simpa [isqrtAux] using ⟨h1, h2⟩
  | succ k ih =>
    unfold isqrtAux
    split_ifs with h
    · apply ih _ h
      have : r + 2 ^ k + 2 ^ k = r + 2 ^ (k + 1) := by rw [pow_succ]; omega
      rw [this]
      exact h2
    · exact ih r h1 (by omega)

/-- The number `isqrt n` is the integer square root of `n`. -/
theorem isqrt_spec (n : Nat) : isqrt n * isqrt n ≤ n ∧ n < (isqrt n + 1) * (isqrt n + 1) := by
  apply isqrtAux_spec
  · simp
  · have h := (bitLength_spec n).1
    have h2 : 2 ^ bitLength n ≤ 2 ^ ((bitLength n + 1) / 2 + (bitLength n + 1) / 2) :=
      Nat.pow_le_pow_right (by norm_num) (by omega)
    rw [pow_add] at h2
    simp only [Nat.zero_add]
    exact lt_of_lt_of_le h h2

theorem valid_finite (s : Bool) (m : Nat) (e : Int) (h1 : m < 2 ^ 24) (h2 : -149 ≤ e)
    (h3 : e ≤ 104) (h4 : 2 ^ 23 ≤ m ∨ e = -149) : valid (finite s m e) = true := by
  simp only [valid, Bool.and_eq_true, Bool.or_eq_true, decide_eq_true_eq]
  exact ⟨⟨⟨h1, h2⟩, h3⟩, h4⟩

theorem valid_carry (s : Bool) (q1 : Nat) (e1 : Int) (h1 : q1 ≤ 2 ^ 24) (h2 : -149 ≤ e1)
    (h3 : 2 ^ 23 ≤ q1 ∨ e1 = -149) :
    valid (if q1 = 2 ^ 24 then (if 104 < e1 + 1 then inf s else finite s (2 ^ 23) (e1 + 1))
      else (if 104 < e1 then inf s else finite s q1 e1)) = true := by
  split_ifs with hq hov hov
  · rfl
  · exact valid_finite _ _ _ (by norm_num) (by omega) (by omega) (Or.inl (le_refl _))
  · rfl
  · exact valid_finite _ _ _ (by omega) h2 (by omega) h3

/-- Every result of `round` is a binary32 datum. -/
theorem round_valid (s : Bool) (m : Nat) (e : Int) : valid (round s m e) = true := by
  unfold round
  split_ifs with hm
  · exact valid_finite _ _ _ (by norm_num) (by norm_num) (by norm_num) (Or.inr rfl)
  · obtain ⟨hL1, hL2⟩ := bitLength_spec m
    have hL2 := hL2 hm
    have hL0 : bitLength m ≠ 0 := by
      intro h0
      rw [h0] at hL1
      omega
    generalize bitLength m = L at hL1 hL2 hL0
    simp only []
    generalize he1 : max (e + (L : Int) - 24) (-149) = e1
    have hmax1 : e + (L : Int) - 24 ≤ e1 := by rw [← he1]; exact le_max_left _ _
    have hmax2 : -149 ≤ e1 := by rw [← he1]; exact le_max_right _ _
    have hmax3 : e1 = e + (L : Int) - 24 ∨ e1 = -149 := by
      rw [← he1]
      rcases max_choice (e + (L : Int) - 24) (-149) with h | h <;> simp [h]
    by_cases hA : e1 ≤ e
    · rw [if_pos hA]
      split_ifs with hov
      · rfl
      · -- no bit is dropped
        have ht : (e - e1).toNat + L ≤ 24 := by omega
        have hlt : m * 2 ^ (e - e1).toNat < 2 ^ 24 := by
          calc m * 2 ^ (e - e1).toNat < 2 ^ L * 2 ^ (e - e1).toNat :=
                Nat.mul_lt_mul_of_pos_right hL1 (by positivity)
            _ = 2 ^ (L + (e - e1).toNat) := by rw [pow_add]
            _ ≤ 2 ^ 24 := Nat.pow_le_pow_right (by norm_num) (by omega)
        refine valid_finite _ _ _ hlt hmax2 (by omega) ?_
        by_cases hmin : e1 = -149
        · exact Or.inr hmin
        · left
          have ht2 : (e - e1).toNat = 24 - L := by omega
          have hL24 : L ≤ 24 := by omega
          calc 2 ^ 23 = 2 ^ (L - 1) * 2 ^ (24 - L) := by
                rw [← pow_add]
                congr 1
                omega
            _ ≤ m * 2 ^ (e - e1).toNat := by
                rw [ht2]
                exact Nat.mul_le_mul_right _ hL2
    · rw [if_neg hA]
      -- `e1 - e` bits are dropped
      have hsh : L ≤ (e1 - e).toNat + 24 := by omega
      have hqlt : m / 2 ^ (e1 - e).toNat < 2 ^ 24 := by
        rw [Nat.div_lt_iff_lt_mul (by positivity)]
        calc m < 2 ^ L := hL1
          _ ≤ 2 ^ ((e1 - e).toNat + 24) := Nat.pow_le_pow_right (by norm_num) hsh
          _ = 2 ^ 24 * 2 ^ (e1 - e).toNat := by rw [pow_add, mul_comm]
      apply valid_carry _ _ _ _ hmax2
      · by_cases hmin : e1 = -149
        · exact Or.inr hmin
        · left
          have hsh2 : (e1 - e).toNat + 24 = L := by omega
          have hqge : 2 ^ 23 ≤ m / 2 ^ (e1 - e).toNat := by
            rw [Nat.le_div_iff_mul_le (by positivity)]
            calc 2 ^ 23 * 2 ^ (e1 - e).toNat = 2 ^ (L - 1) := by
                  rw [← pow_add]
                  congr 1
                  omega
              _ ≤ m := hL2
          split_ifs <;> omega
      · split_ifs <;> omega

theorem valid_zero (s : Bool) : valid (finite s 0 (-149)) = true := by
  cases s <;> rfl

/-- Sums, differences, products and square roots are binary32 data,
whatever the operands. -/
theorem add_valid (x y : Binary32) : valid (add x y) = true := by
  cases x <;> cases y <;> simp only [add] <;> try rfl
  · split_ifs <;> rfl
  · split_ifs
    · exact valid_zero _
    · exact round_valid _ _ _

theorem sub_valid (x y : Binary32) : valid (sub x y) = true :=
  add_valid x (neg y)

theorem mul_valid (x y : Binary32) : valid (mul x y) = true := by
  cases x <;> cases y <;> simp only [mul] <;> try rfl
  · split_ifs <;> rfl
  · split_ifs <;> rfl
  · exact round_valid _ _ _

theorem sqrt_valid (x : Binary32) : valid (sqrt x) = true := by
  cases x with
  | nan => rfl
  | inf s => cases s <;> rfl
  | finite s m e =>
    simp only [sqrt]
    by_cases hm : m = 0
    · rw [if_pos hm]
      exact valid_zero _
    · rw [if_neg hm]
      cases s
      · exact round_valid _ _ _
      · rfl

theorem signed_scale (s : Bool) (m k : Nat) :
    ((signed s (m * 2 ^ k) : Int) : ℚ) = (signed s m : ℚ) * 2 ^ k := by
  cases s <;> simp [signed]

theorem fval_align (s : Bool) (m : Nat) (e e0 : Int) (h : e0 ≤ e) :
    ((signed s (m * 2 ^ (e - e0).toNat) : Int) : ℚ) * 2 ^ e0 = fval s m e := by
  have h2 : ((2 : ℚ) ^ (e - e0).toNat) * 2 ^ e0 = 2 ^ e := by
    rw [← zpow_natCast, ← zpow_add₀ (by norm_num : (2 : ℚ) ≠ 0),
      Int.toNat_of_nonneg (by omega), sub_add_cancel]
  rw [signed_scale, mul_assoc, h2, fval]

/-- On finite data `lt` is the order of the values. -/
theorem lt_finite_iff (s1 : Bool) (m1 : Nat) (e1 : Int) (s2 : Bool) (m2 : Nat) (e2 : Int) :
    lt (finite s1 m1 e1) (finite s2 m2 e2) = true ↔ fval s1 m1 e1 < fval s2 m2 e2 := by
  simp only [lt, decide_eq_true_eq]
  rw [← fval_align s1 m1 e1 (min e1 e2) (min_le_left _ _),
    ← fval_align s2 m2 e2 (min e1 e2) (min_le_right _ _),
    mul_lt_mul_right (zpow_pos (by norm_num) _), Int.cast_lt]

theorem lt_irreflexive (x : Binary32) : lt x x = false := by
  cases x with
  | nan => rfl
  | inf s => cases s <;> rfl
  | finite s m e => simp [lt]

theorem lt_transitive (x y z : Binary32) (h1 : lt x y = true) (h2 : lt y z = true) :
    lt x z = true := by
  cases x with
  | nan => simp [lt] at h1
  | inf a =>
    cases y with
    | nan => simp [lt] at h1
    | inf b =>
      cases z with
      | nan => simp [lt] at h2
      | inf c => cases a <;> cases b <;> cases c <;> simp_all [lt]
      | finite c n f => cases a <;> cases b <;> simp_all [lt]
    | finite b n f =>
      cases z with
      | nan => simp [lt] at h2
      | inf c => cases a <;> cases c <;> simp_all [lt]
      | finite c n2 f2 => simpa [lt] using h1
  | finite a m e =>
    cases y with
    | nan => simp [lt] at h1
    | inf b =>
      cases z with
      | nan => simp [lt] at h2
      | inf c => cases b <;> cases c <;> simp_all [lt]
      | finite c n f => cases b <;> simp_all [lt]
    | finite b n f =>
      cases z with
      | nan => simp [lt] at h2
      | inf c => simpa [lt] using h2
      | finite c n2 f2 =>
        rw [lt_finite_iff] at h1 h2 ⊢
        exact lt_trans h1 h2

/-- From `a < b` and not `c < b`, for `c` other than NaN, follows `a < c`. -/
theorem lt_of_lt_of_not_lt (a b c : Binary32) (h1 : lt a b = true) (h2 : lt c b = false)
    (hc : c ≠ nan) : lt a c = true := by
  cases c with
  | nan => exact absurd rfl hc
  | inf sc =>
    cases a with
    | nan => simp [lt] at h1
    | inf sa => cases b <;> cases sa <;> cases sc <;> simp_all [lt]
    | finite sa ma ea => cases b <;> cases sc <;> simp_all [lt]
  | finite sc mc ec =>
    cases b with
    | nan => cases a <;> simp [lt] at h1
    | inf sb =>
      cases a with
      | nan => simp [lt] at h1
      | inf sa => cases sa <;> cases sb <;> simp_all [lt]
      | finite sa ma ea => cases sb <;> simp_all [lt]
    | finite sb mb eb =>
      cases a with
      | nan => simp [lt] at h1
      | inf sa => simpa [lt] using h1
      | finite sa ma ea =>
        have h3 : ¬ lt (finite sc mc ec) (finite sb mb eb) = true := by simp [h2]
        rw [lt_finite_iff] at h1 h3 ⊢
        exact lt_of_lt_of_le h1 (not_lt.mp h3)

/-- The arithmetic on known cases: `2^24 + 1` and `(2^24 + 2) + 1` are ties
and go to the even neighbour, `FLT_MAX * 2` overflows to `+inf`, half of the
least subnormal is a tie that goes to zero and half of three times it a tie
that goes to twice it, `0.1f + 0.2f` and `sqrt(2.0f)`
are rounded to `0x3E99999A` and `0x3FB504F3`, `inf - inf` and `0 * inf` are
NaN, and no comparison with NaN holds. -/
theorem arithmetic_examples :
    add (ofBits 0x4B800000) (ofBits 0x3F800000) = ofBits 0x4B800000 ∧
      add (ofBits 0x4B800001) (ofBits 0x3F800000) = ofBits 0x4B800002 ∧
      mul max_float (ofBits 0x40000000) = inf false ∧
      mul (ofBits 0x00000001) (ofBits 0x3F000000) = ofBits 0 ∧
      mul (ofBits 0x00000003) (ofBits 0x3F000000) = ofBits 0x00000002 ∧
      add (ofBits 0x3DCCCCCD) (ofBits 0x3E4CCCCD) = ofBits 0x3E99999A ∧
      sqrt (ofBits 0x40000000) = ofBits 0x3FB504F3 ∧
      sub (inf false) (inf false) = nan ∧
      mul (ofBits 0) (inf false) = nan ∧
      lt nan max_float = false ∧ lt (inf false) max_float = false ∧
      max_float = ofBits 0x7F7FFFFF := by
  decide

end Binary32

/-! ## The label set -/

theorem mem_set_insert (s : List Label) (x z : Label) :
    z ∈ set_insert s x ↔ z = x ∨ z ∈ s := by
  induction s with
  | nil => simp [set_insert]
  | cons y ys ih =>
    unfold set_insert
    split_ifs with h1 h2
    · simp
    · subst h2
      simp
    · simp only [List.mem_cons, ih]
      tauto

theorem sorted_set_insert (s : List Label) (x : Label) (hs : s.Sorted (· < ·)) :
    (set_insert s x).Sorted (· < ·) := by
  induction s with
  | nil => simp [set_insert]
  | cons y ys ih =>
    have hy := List.sorted_cons.mp hs
    unfold set_insert
    split_ifs with h1 h2
    · refine List.sorted_cons.mpr ⟨?_, hs⟩
      intro b hb
      rcases List.mem_cons.mp hb with rfl | hb
      · exact h1
      · exact lt_trans h1 (hy.1 b hb)
    · exact hs
    · refine List.sorted_cons.mpr ⟨?_, ih hy.2⟩
      intro b hb
      rcases (mem_set_insert ys x b).mp hb with rfl | hb
      · exact lt_of_le_of_ne (not_lt.mp h1) (Ne.symm h2)
      · exact hy.1 b hb

/-- The loop of `is_binary_classification` started from any sorted set:
the result is sorted and holds the start's keys and the labels seen. -/
theorem foldl_set_insert (labels : List Label) (s : List Label) (hs : s.Sorted (· < ·)) :
    (labels.foldl set_insert s).Sorted (· < ·) ∧
      ∀ z, z ∈ labels.foldl set_insert s ↔ z ∈ s ∨ z ∈ labels := by
  induction labels generalizing s with
  | nil => simp [hs]
  | cons l ls ih =>
    obtain ⟨h1, h2⟩ := ih (set_insert s l) (sorted_set_insert s l hs)
    refine ⟨h1, fun z => ?_⟩
    rw [List.foldl_cons, h2, mem_set_insert, List.mem_cons]
    tauto

theorem unique_labels_eq (training_data : TrainingData) :
    unique_labels training_data = (training_data.map DataPoint.label).foldl set_insert [] := by
  unfold unique_labels
  rw [List.foldl_map]

/-- The size of the set built by `is_binary_classification` is the number
of distinct labels of the data. -/
theorem length_unique_labels (training_data : TrainingData) :
    (unique_labels training_data).length =
      (training_data.map DataPoint.label).toFinset.card := by
  obtain ⟨h1, h2⟩ :=
    foldl_set_insert (training_data.map DataPoint.label) [] (List.sorted_nil)
  rw [unique_labels_eq, ← List.toFinset_card_of_nodup h1.nodup]
  congr 1
  ext z
  simp [h2]

/-! ## Label arity -/

/-- C1: for every dataset, `is_binary_classification` returns true if and
only if the number of distinct labels occurring in the dataset is exactly 2. -/
theorem is_binary_classification_iff_two_labels (training_data : TrainingData) :
    is_binary_classification training_data = true ↔
      (training_data.map DataPoint.label).toFinset.card = 2 := by
  unfold is_binary_classification
  rw [decide_eq_true_iff, length_unique_labels]

theorem is_binary_classification_eq_decide (training_data : TrainingData) :
    is_binary_classification training_data =
      decide ((training_data.map DataPoint.label).toFinset.card = 2) := by
  unfold is_binary_classification
  rw [length_unique_labels]

/-- C8: `is_binary_classification` is false on the flower data of `main`,
which has three distinct labels, and on every dataset with three or more
distinct labels. -/
theorem is_binary_classification_false_of_three_labels :
    is_binary_classification flower_training_data = false ∧
      (flower_training_data.map DataPoint.label).toFinset.card = 3 ∧
      ∀ training_data : TrainingData,
        3 ≤ (training_data.map DataPoint.label).toFinset.card →
          is_binary_classification training_data = false := by
  refine ⟨by decide, by decide, fun training_data h => ?_⟩
  rw [is_binary_classification_eq_decide, decide_eq_false_iff_not]
  omega

/-- C8 at the fruit data of `main`, whose labels are 0, 1 and 2. -/
theorem is_binary_classification_false_of_three_labels_witness :
    3 ≤ (fruit_training_data.map DataPoint.label).toFinset.card ∧
      is_binary_classification fruit_training_data = false :=
  ⟨by decide, is_binary_classification_false_of_three_labels.2.2 fruit_training_data (by decide)⟩

/-- C9: `is_binary_classification` has a Boolean result on every dataset;
the result is false on the empty dataset and on every dataset whose labels
are all equal. -/
theorem is_binary_classification_total :
    (∀ training_data : TrainingData, ∃ b : Bool, is_binary_classification training_data = b) ∧
      is_binary_classification [] = false ∧
      ∀ (training_data : TrainingData) (l : Label),
        (∀ p ∈ training_data, p.label = l) →
          is_binary_classification training_data = false := by
  refine ⟨fun training_data => ⟨_, rfl⟩, by decide, fun training_data l h => ?_⟩
  rw [is_binary_classification_eq_decide, decide_eq_false_iff_not]
  have hsub : (training_data.map DataPoint.label).toFinset ⊆ {l} := by
    intro z hz
    rw [List.mem_toFinset, List.mem_map] at hz
    obtain ⟨p, hp, rfl⟩ := hz
    rw [Finset.mem_singleton]
    exact h p hp
  have hcard := Finset.card_le_card hsub
  rw [Finset.card_singleton] at hcard
  omega

/-- C9 at a dataset of three points that all carry the label 4. -/
theorem is_binary_classification_total_witness :
    is_binary_classification
      [⟨[literal 1 1], 4⟩, ⟨[literal 2 1, literal 3 1], 4⟩, ⟨[], 4⟩] = false :=
  is_binary_classification_total.2.2 _ 4 (by decide)

/-- C10: a dataset whose labels are exactly 0 and 1 is binary, and the
result of `is_binary_classification` depends on the sequence of labels
only: two datasets with the same labels in the same order, whatever their
feature vectors, get the same result. -/
theorem is_binary_classification_labels_only :
    (∀ training_data : TrainingData,
        (∀ p ∈ training_data, p.label = 0 ∨ p.label = 1) →
        (∃ p ∈ training_data, p.label = 0) → (∃ p ∈ training_data, p.label = 1) →
          is_binary_classification training_data = true) ∧
      ∀ training_data other : TrainingData,
        other.map DataPoint.label = training_data.map DataPoint.label →
          is_binary_classification other = is_binary_classification training_data := by
  constructor
  · intro training_data h01 h0 h1
    rw [is_binary_classification_eq_decide, decide_eq_true_iff]
    have hset : (training_data.map DataPoint.label).toFinset = {0, 1} := by
      ext z
      rw [List.mem_toFinset, List.mem_map, Finset.mem_insert, Finset.mem_singleton]
      constructor
      · rintro ⟨p, hp, rfl⟩
        exact h01 p hp
      · rintro (rfl | rfl)
        · obtain ⟨p, hp, hl⟩ := h0
          exact ⟨p, hp, hl⟩
        · obtain ⟨p, hp, hl⟩ := h1
          exact ⟨p, hp, hl⟩
    rw [hset]
    decide
  · intro training_data other h
    rw [is_binary_classification_eq_decide, is_binary_classification_eq_decide, h]

/-- C10 at a dataset with labels 0, 1, 0 and feature vectors of lengths
0, 1 and 2. -/
theorem is_binary_classification_labels_only_witness :
    is_binary_classification
      [⟨[], 0⟩, ⟨[literal 1 1], 1⟩, ⟨[literal 2 1, literal 3 1], 0⟩] = true :=
  is_binary_classification_labels_only.1 _ (by decide) (by decide) (by decide)

/-! ## The scan of `predict_label` -/

/-- The inner loop reads no index past the end when both vectors are long
enough, and then it ends with a sum. -/
theorem sum_loop_ok (new_features features : FeatureVector) (remaining i : Nat)
    (distance : Binary32) (h1 : i + remaining ≤ new_features.length)
    (h2 : i + remaining ≤ features.length) :
    ∃ d, sum_loop new_features features remaining i distance = .ok d := by
  induction remaining generalizing i distance with
  | zero => exact ⟨distance, rfl⟩
  | succ k ih =>
    have ha : i < new_features.length := by omega
    have hb : i < features.length := by omega
    simp only [sum_loop, List.getElem?_eq_getElem ha, List.getElem?_eq_getElem hb]
    exact ih (i + 1) _ (by omega) (by omega)

theorem euclidean_distance_ok (new_features features : FeatureVector)
    (h : new_features.length ≤ features.length) :
    ∃ d, euclidean_distance new_features features = .ok d := by
  obtain ⟨d, hd⟩ := sum_loop_ok new_features features new_features.length 0 Binary32.zero
    (by omega) (by omega)
  exact ⟨Binary32.sqrt d, by simp [euclidean_distance, hd]⟩

/-- What the outer loop returns when every distance is computed: either no
distance is below the initial `min_distance` and the initial label comes
back, or the label of the first data point whose distance is below the
initial `min_distance` and has no distance of the dataset below it. -/
theorem scan_spec (new_features : FeatureVector) (training_data : TrainingData)
    (min_distance : Binary32) (predicted_label : Label)
    (hok : ∀ p ∈ training_data, ∃ d, euclidean_distance new_features p.features = .ok d) :
    (scan new_features training_data min_distance predicted_label = .ok predicted_label ∧
        ∀ p ∈ training_data, ∀ d, euclidean_distance new_features p.features = .ok d →
          Binary32.lt d min_distance = false) ∨
      ∃ pre p post d, training_data = pre ++ p :: post ∧
        euclidean_distance new_features p.features = .ok d ∧
        Binary32.lt d min_distance = true ∧
        scan new_features training_data min_distance predicted_label = .ok p.label ∧
        (∀ p' ∈ training_data, ∀ d', euclidean_distance new_features p'.features = .ok d' →
          Binary32.lt d' d = false) ∧
        ∀ p' ∈ pre, ∀ d', euclidean_distance new_features p'.features = .ok d' →
          Binary32.lt d d' = true ∨ d' = Binary32.nan := by
  induction training_data generalizing min_distance predicted_label with
  | nil => exact Or.inl ⟨rfl, by simp⟩
  | cons p rest ih =>
    obtain ⟨d, hd⟩ := hok p (List.mem_cons_self _ _)
    have hrest : ∀ p' ∈ rest, ∃ d, euclidean_distance new_features p'.features = .ok d :=
      fun p' hp' => hok p' (List.mem_cons_of_mem _ hp')
    by_cases hlt : Binary32.lt d min_distance = true
    · have hscan : scan new_features (p :: rest) min_distance predicted_label =
          scan new_features rest d p.label := by
        simp only [scan, hd, hlt, if_true]
      rw [hscan]
      right
      rcases ih d p.label hrest with ⟨h1, h2⟩ | ⟨pre, p2, post, d2, h1, h2, h3, h4, h5, h6⟩
      · refine ⟨[], p, rest, d, rfl, hd, hlt, h1, ?_, by simp⟩
        intro p' hp' d' hd'
        rcases List.mem_cons.mp hp' with rfl | hp'
        · rw [hd] at hd'
          cases hd'
          exact Binary32.lt_irreflexive d
        · exact h2 p' hp' d' hd'
      · refine ⟨p :: pre, p2, post, d2, by rw [h1]; rfl, h2,
          Binary32.lt_transitive _ _ _ h3 hlt, h4, ?_, ?_⟩
        · intro p' hp' d' hd'
          rcases List.mem_cons.mp hp' with rfl | hp'
          · rw [hd] at hd'
            cases hd'
            by_contra hc
            have h7 := Binary32.lt_transitive _ _ _ h3 (by simpa using hc)
            rw [Binary32.lt_irreflexive] at h7
            exact Bool.false_ne_true h7
          · exact h5 p' hp' d' hd'
        · intro p' hp' d' hd'
          rcases List.mem_cons.mp hp' with rfl | hp'
          · rw [hd] at hd'
            cases hd'
            exact Or.inl h3
          · exact h6 p' hp' d' hd'
    · have hlt : Binary32.lt d min_distance = false := by simpa using hlt
      have hscan : scan new_features (p :: rest) min_distance predicted_label =
          scan new_features rest min_distance predicted_label := by
        simp [scan, hd, hlt]
      rw [hscan]
      rcases ih min_distance predicted_label hrest with
        ⟨h1, h2⟩ | ⟨pre, p2, post, d2, h1, h2, h3, h4, h5, h6⟩
      · left
        refine ⟨h1, ?_⟩
        intro p' hp' d' hd'
        rcases List.mem_cons.mp hp' with rfl | hp'
        · rw [hd] at hd'
          cases hd'
          exact hlt
        · exact h2 p' hp' d' hd'
      · right
        refine ⟨p :: pre, p2, post, d2, by rw [h1]; rfl, h2, h3, h4, ?_, ?_⟩
        · intro p' hp' d' hd'
          rcases List.mem_cons.mp hp' with rfl | hp'
          · rw [hd] at hd'
            cases hd'
            by_contra hc
            have h7 := Binary32.lt_transitive _ _ _ (by simpa using hc) h3
            rw [hlt] at h7
            exact Bool.false_ne_true h7
          · exact h5 p' hp' d' hd'
        · intro p' hp' d' hd'
          rcases List.mem_cons.mp hp' with rfl | hp'
          · rw [hd] at hd'
            cases hd'
            by_cases hn : d = Binary32.nan
            · exact Or.inr hn
            · exact Or.inl (Binary32.lt_of_lt_of_not_lt _ _ _ h3 hlt hn)
          · exact h6 p' hp' d' hd'

/-- What `predict_label` returns on a valid input whose data points all have
the query's length: `-1` when no distance is below `FLT_MAX`, and otherwise
the label of the first data point whose distance is below `FLT_MAX` and has
no distance of the dataset below it. -/
theorem predict_label_spec (new_features : FeatureVector) (training_data : TrainingData)
    (hdata : training_data ≠ []) (hquery : new_features ≠ [])
    (hlen : ∀ p ∈ training_data, p.features.length = new_features.length) :
    (predict_label new_features training_data = .ok (-1) ∧
        ∀ p ∈ training_data, ∀ d, euclidean_distance new_features p.features = .ok d →
          Binary32.lt d Binary32.max_float = false) ∨
      ∃ pre p post d, training_data = pre ++ p :: post ∧
        euclidean_distance new_features p.features = .ok d ∧
        Binary32.lt d Binary32.max_float = true ∧
        predict_label new_features training_data = .ok p.label ∧
        (∀ p' ∈ training_data, ∀ d', euclidean_distance new_features p'.features = .ok d' →
          Binary32.lt d' d = false) ∧
        ∀ p' ∈ pre, ∀ d', euclidean_distance new_features p'.features = .ok d' →
          Binary32.lt d d' = true ∨ d' = Binary32.nan := by
  have hok : ∀ p ∈ training_data, ∃ d, euclidean_distance new_features p.features = .ok d :=
    fun p hp => euclidean_distance_ok _ _ (by rw [hlen p hp])
  have hrun : predict_label new_features training_data =
      scan new_features training_data Binary32.max_float (-1) := by
    cases training_data with
    | nil => exact absurd rfl hdata
    | cons first rest =>
      have h1 : new_features.isEmpty = false := by
        cases new_features with
        | nil => exact absurd rfl hquery
        | cons a l => rfl
      have h2 : (new_features.length != first.features.length) = false := by
        simp [hlen first (List.mem_cons_self _ _)]
      simp only [predict_label, h1, h2, Bool.or_self, Bool.false_eq_true, if_false]
  rw [hrun]
  exact scan_spec new_features training_data Binary32.max_float (-1) hok

/-! ## Validation in `predict_label` -/

/-- C5, as claimed, fails on the message: on the query `{1.0f, 2.0f}` and
the empty dataset the error text is "Training data is empty", with a
capital T, not "training data is empty". -/
theorem predict_label_empty_message_counterexample :
    predict_label short_query [] = .error (.invalid_argument "Training data is empty") ∧
      ¬ predict_label short_query [] = .error (.invalid_argument "training data is empty") := by
  decide

/-- C5, amended: for every query, of any length, `predict_label` on the
empty dataset ends in `invalid_argument` with the text
"Training data is empty"; no label is returned, and the query's size is
not looked at first. -/
theorem predict_label_empty (new_features : FeatureVector) :
    predict_label new_features [] = .error (.invalid_argument "Training data is empty") ∧
      ∀ l : Label, predict_label new_features [] ≠ .ok l := by
  refine ⟨rfl, fun l h => ?_⟩
  simp [predict_label] at h

/-- C6, as claimed, fails on the message: on the query `{1.0f, 2.0f}` and
the 3-dimensional fruit data the error text is
"Feature vector size mismatch", with a capital F. -/
theorem predict_label_mismatch_message_counterexample :
    predict_label short_query fruit_training_data =
        .error (.invalid_argument "Feature vector size mismatch") ∧
      ¬ predict_label short_query fruit_training_data =
        .error (.invalid_argument "feature vector size mismatch") := by
  decide

/-- C6, amended: for every non-empty dataset and every query that is empty
or whose length differs from the length of the first data point's feature
vector, `predict_label` ends in `invalid_argument` with the text
"Feature vector size mismatch" and returns no label. -/
theorem predict_label_size_mismatch (new_features : FeatureVector) (first : DataPoint)
    (rest : TrainingData)
    (h : new_features = [] ∨ new_features.length ≠ first.features.length) :
    predict_label new_features (first :: rest) =
        .error (.invalid_argument "Feature vector size mismatch") ∧
      ∀ l : Label, predict_label new_features (first :: rest) ≠ .ok l := by
  have hc : (new_features.isEmpty || new_features.length != first.features.length) = true := by
    rcases h with h | h
    · simp [h]
    · simp [h]
  have he : predict_label new_features (first :: rest) =
      .error (.invalid_argument "Feature vector size mismatch") := by
    simp only [predict_label, hc, if_true]
  refine ⟨he, fun l hl => ?_⟩
  rw [he] at hl
  exact absurd hl (by simp)

/-- C6 amended, at a 2-element query against the 3-dimensional fruit data. -/
theorem predict_label_size_mismatch_witness :
    predict_label short_query fruit_training_data =
        .error (.invalid_argument "Feature vector size mismatch") ∧
      ∀ l : Label, predict_label short_query fruit_training_data ≠ .ok l :=
  predict_label_size_mismatch short_query ⟨[literal 150 1, literal 1 1, literal 1 1], 0⟩ _
    (Or.inr (by decide))

/-! ## The nearest neighbour -/

/-- C7: on the fruit data and the query `{180, 1, 1}` of `main`,
`predict_label` returns label 0. The five distances are 30, about 20.0499,
about 70.0143, 20 and about 30.0333: the nearest point is the fourth,
`{160, 1, 1}`, at distance exactly 20, and 20 is strictly less than each of
the other four distances. -/
theorem predict_label_new_fruit :
    predict_label new_fruit fruit_training_data = .ok 0 ∧
      fruit_training_data.map (fun p => euclidean_distance new_fruit p.features) =
        [.ok (literal 30 1), .ok (Binary32.ofBits 0x41A06646),
         .ok (Binary32.ofBits 0x428C0750), .ok (literal 20 1),
         .ok (Binary32.ofBits 0x41F0443B)] ∧
      Binary32.lt (literal 20 1) (literal 30 1) = true ∧
      Binary32.lt (literal 20 1) (Binary32.ofBits 0x41A06646) = true ∧
      Binary32.lt (literal 20 1) (Binary32.ofBits 0x428C0750) = true ∧
      Binary32.lt (literal 20 1) (Binary32.ofBits 0x41F0443B) = true := by
  decide

/-- C3 at the query `{1e20f}` and the single training point `({0.0f}, 0)`:
the input is valid and every feature is a finite binary32, the squared
difference `1e40` overflows to `+inf`, `+inf < FLT_MAX` is false, and
`predict_label` returns the initial value `-1`, which is no label of the
dataset. -/
theorem predict_label_sentinel_on_overflow :
    far_query = [Binary32.ofBits 0x60AD78EC] ∧
      origin_data = [⟨[Binary32.ofBits 0], 0⟩] ∧
      euclidean_distance far_query [literal 0 1] = .ok (Binary32.inf false) ∧
      Binary32.lt (Binary32.inf false) Binary32.max_float = false ∧
      predict_label far_query origin_data = .ok (-1) ∧
      ∀ p ∈ origin_data, p.label ≠ -1 := by
  decide

/-- C2 at the query `{1e20f, 0.0f}` and the training points
`({0.0f, 0.0f}, 1)` and `({1.0f, 1.0f}, 2)`: both distances are `+inf`,
and `predict_label` returns `-1`, the label of no data point, so no data
point with the returned label is nearest. -/
theorem predict_label_no_nearest_on_overflow :
    near_origin_data.map (fun p => euclidean_distance far_query2 p.features) =
        [.ok (Binary32.inf false), .ok (Binary32.inf false)] ∧
      predict_label far_query2 near_origin_data = .ok (-1) ∧
      ∀ p ∈ near_origin_data, p.label ≠ -1 := by
  decide

/-- C4 at the query `{1e20f}` and the training points `({0.0f}, 7)` and
`({0.0f}, 9)`: the two points are at the same distance `+inf`, the minimum
over the dataset, the first of them has label 7, and `predict_label`
returns `-1`. -/
theorem predict_label_tie_on_overflow :
    tied_data.map (fun p => euclidean_distance far_query p.features) =
        [.ok (Binary32.inf false), .ok (Binary32.inf false)] ∧
      tied_data.map DataPoint.label = [7, 9] ∧
      predict_label far_query tied_data = .ok (-1) := by
  decide

/-! ## Order and duplicates of the labels -/

/-- C11: the result of `is_binary_classification` is the same for every
permutation of the dataset, and the same after appending a data point
whose label already occurs in the dataset (a copy of a data point of the
dataset in particular). -/
theorem is_binary_classification_perm_and_duplicates :
    (∀ training_data other : TrainingData, training_data.Perm other →
        is_binary_classification other = is_binary_classification training_data) ∧
      (∀ (training_data : TrainingData) (p : DataPoint),
        (∃ p' ∈ training_data, p'.label = p.label) →
          is_binary_classification (training_data ++ [p]) =
            is_binary_classification training_data) ∧
      ∀ (training_data : TrainingData) (p : DataPoint), p ∈ training_data →
        is_binary_classification (training_data ++ [p]) =
          is_binary_classification training_data := by
  have happ : ∀ (training_data : TrainingData) (p : DataPoint),
      (∃ p' ∈ training_data, p'.label = p.label) →
        is_binary_classification (training_data ++ [p]) =
          is_binary_classification training_data := by
    intro training_data p h
    rw [is_binary_classification_eq_decide, is_binary_classification_eq_decide]
    have hset : ((training_data ++ [p]).map DataPoint.label).toFinset =
        (training_data.map DataPoint.label).toFinset := by
      ext z
      simp only [List.map_append, List.map_cons, List.map_nil, List.toFinset_append,
        List.toFinset_cons, List.toFinset_nil, Finset.mem_union, List.mem_toFinset,
        List.mem_map, Finset.mem_insert, Finset.not_mem_empty, or_false]
      constructor
      · rintro (h1 | rfl)
        · exact h1
        · exact h
      · exact Or.inl
    rw [hset]
  refine ⟨?_, happ, fun training_data p hp => happ training_data p ⟨p, hp, rfl⟩⟩
  intro training_data other h
  rw [is_binary_classification_eq_decide, is_binary_classification_eq_decide,
    List.toFinset_eq_of_perm _ _ (h.map DataPoint.label)]

/-- C11 at the fruit data of `main`: reversed, and with its first data
point appended once more. -/
theorem is_binary_classification_perm_and_duplicates_witness :
    is_binary_classification fruit_training_data.reverse =
        is_binary_classification fruit_training_data ∧
      is_binary_classification
          (fruit_training_data ++ [⟨[literal 150 1, literal 1 1, literal 1 1], 0⟩]) =
        is_binary_classification fruit_training_data :=
  ⟨is_binary_classification_perm_and_duplicates.1 _ _ (List.reverse_perm _).symm,
    is_binary_classification_perm_and_duplicates.2.2 _ _ (by decide)⟩

/-! ## What validation looks at -/

theorem sum_loop_error (new_features features : FeatureVector) (remaining i : Nat)
    (distance : Binary32) (f : Failure)
    (h : sum_loop new_features features remaining i distance = .error f) :
    f = .out_of_range := by
  induction remaining generalizing i distance with
  | zero => simp [sum_loop] at h
  | succ k ih =>
    unfold sum_loop at h
    split at h
    · exact ih _ _ h
    · cases h
      rfl

theorem euclidean_distance_error (new_features features : FeatureVector) (f : Failure)
    (h : euclidean_distance new_features features = .error f) : f = .out_of_range := by
  unfold euclidean_distance at h
  split at h
  · cases h
  · next f' hf =>
    cases h
    exact sum_loop_error _ _ _ _ _ _ hf

/-- The outer loop ends with a label or with a read out of range, never
with `invalid_argument`. -/
theorem scan_error (new_features : FeatureVector) (training_data : TrainingData)
    (min_distance : Binary32) (predicted_label : Label) (f : Failure)
    (h : scan new_features training_data min_distance predicted_label = .error f) :
    f = .out_of_range := by
  induction training_data generalizing min_distance predicted_label with
  | nil => simp [scan] at h
  | cons p rest ih =>
    unfold scan at h
    split at h
    · split_ifs at h
      · exact ih _ _ h
      · exact ih _ _ h
    · next f' hf =>
      cases h
      exact euclidean_distance_error _ _ _ hf

/-- C12: on a non-empty dataset and a non-empty query whose length is the
first data point's feature length, `predict_label` raises no
`invalid_argument`, whatever the later data points are; and on every input
it raises `invalid_argument` if and only if the dataset is empty, or the
query is empty, or the query's length differs from the first data point's
feature length. -/
theorem predict_label_invalid_argument_iff :
    (∀ (new_features : FeatureVector) (first : DataPoint) (rest : TrainingData),
        new_features ≠ [] → new_features.length = first.features.length →
          ∀ what, predict_label new_features (first :: rest) ≠
            .error (.invalid_argument what)) ∧
      ∀ (new_features : FeatureVector) (training_data : TrainingData),
        (∃ what, predict_label new_features training_data =
            .error (.invalid_argument what)) ↔
          (training_data = [] ∨ new_features = [] ∨
            ∃ first rest, training_data = first :: rest ∧
              new_features.length ≠ first.features.length) := by
  have hpass : ∀ (new_features : FeatureVector) (first : DataPoint) (rest : TrainingData),
      new_features ≠ [] → new_features.length = first.features.length →
        ∀ what, predict_label new_features (first :: rest) ≠
          .error (.invalid_argument what) := by
    intro new_features first rest hq hlen what h
    have h1 : new_features.isEmpty = false := by
      cases new_features with
      | nil => exact absurd rfl hq
      | cons a l => rfl
    have h2 : (new_features.length != first.features.length) = false := by
      simp [hlen]
    simp only [predict_label, h1, h2, Bool.or_self, Bool.false_eq_true, if_false] at h
    have h3 := scan_error _ _ _ _ _ h
    cases h3
  refine ⟨hpass, fun new_features training_data => ⟨?_, ?_⟩⟩
  · rintro ⟨what, h⟩
    cases training_data with
    | nil => exact Or.inl rfl
    | cons first rest =>
      right
      by_cases hq : new_features = []
      · exact Or.inl hq
      · right
        refine ⟨first, rest, rfl, fun hlen => ?_⟩
        exact hpass new_features first rest hq hlen what h
  · rintro (rfl | rfl | ⟨first, rest, rfl, hlen⟩)
    · exact ⟨_, rfl⟩
    · cases training_data with
      | nil => exact ⟨_, rfl⟩
      | cons first rest => exact ⟨_, rfl⟩
    · refine ⟨"Feature vector size mismatch", ?_⟩
      have h2 : (new_features.length != first.features.length) = true := by simp [hlen]
      simp only [predict_label, h2, Bool.or_true, if_true]

/-- C12 at the query `{1.0f, 2.0f}` and a dataset whose first data point
has two features and whose second has one: no `invalid_argument`. -/
theorem predict_label_invalid_argument_iff_witness :
    ∀ what, predict_label short_query ragged_data ≠ .error (.invalid_argument what) :=
  predict_label_invalid_argument_iff.1 short_query ⟨[literal 0 1, literal 0 1], 1⟩ _
    (by decide) (by decide)

/-! ## Reads past the end of a feature vector -/

/-- C14: on a non-empty dataset whose data points all have the same feature
length and a query that passes validation, every index `i` that
`predict_label` reads in a data point is below that data point's feature
length, no read is out of range and the scan ends with a value of type
`Label`; and on `short_query` and `ragged_data`, which pass validation
with a second data point shorter than the query, a read out of range is
reached. -/
theorem predict_label_in_range :
    (∀ (new_features : FeatureVector) (first : DataPoint) (rest : TrainingData),
        (∀ p ∈ first :: rest, p.features.length = first.features.length) →
        new_features ≠ [] → new_features.length = first.features.length →
          (∀ p ∈ first :: rest, ∀ i, i < new_features.length → i < p.features.length) ∧
            predict_label new_features (first :: rest) ≠ .error .out_of_range ∧
            ∃ l, predict_label new_features (first :: rest) = .ok l) ∧
      (short_query ≠ [] ∧
        (∃ first rest, ragged_data = first :: rest ∧
          short_query.length = first.features.length) ∧
        (∃ p ∈ ragged_data, p.features.length < short_query.length) ∧
        predict_label short_query ragged_data = .error .out_of_range) := by
  refine ⟨?_, by decide, ⟨_, _, rfl, by decide⟩, by decide, by decide⟩
  intro new_features first rest hsame hq hlen
  have hlen' : ∀ p ∈ first :: rest, p.features.length = new_features.length :=
    fun p hp => by rw [hsame p hp, hlen]
  have hok : ∃ l, predict_label new_features (first :: rest) = .ok l := by
    rcases predict_label_spec new_features (first :: rest) (by simp) hq hlen' with
      ⟨h, _⟩ | ⟨_, p, _, _, _, _, _, h, _⟩
    · exact ⟨_, h⟩
    · exact ⟨_, h⟩
  refine ⟨fun p hp i hi => by rw [hlen' p hp]; exact hi, ?_, hok⟩
  obtain ⟨l, hl⟩ := hok
  rw [hl]
  simp

/-- C14 at the fruit data and the query of `main`. -/
theorem predict_label_in_range_witness :
    (∀ p ∈ fruit_training_data, ∀ i, i < new_fruit.length → i < p.features.length) ∧
      predict_label new_fruit fruit_training_data ≠ .error .out_of_range ∧
      ∃ l, predict_label new_fruit fruit_training_data = .ok l :=
  predict_label_in_range.1 new_fruit ⟨[literal 150 1, literal 1 1, literal 1 1], 0⟩ _
    (by decide) (by decide) (by decide)

/-! ## Coordinates past the query's length -/

theorem sum_loop_take (new_features features : FeatureVector) (n remaining i : Nat)
    (distance : Binary32) (h : i + remaining ≤ n) :
    sum_loop new_features (features.take n) remaining i distance =
      sum_loop new_features features remaining i distance := by
  induction remaining generalizing i distance with
  | zero => rfl
  | succ k ih =>
    have hi : i < n := by omega
    have ht : (features.take n)[i]? = features[i]? := by
      rw [List.getElem?_take, if_pos hi]
    simp only [sum_loop, ht]
    cases new_features[i]? with
    | none => rfl
    | some a =>
      cases features[i]? with
      | none => rfl
      | some b => exact ih (i + 1) _ (by omega)

theorem euclidean_distance_take (new_features features : FeatureVector) :
    euclidean_distance new_features (features.take new_features.length) =
      euclidean_distance new_features features := by
  unfold euclidean_distance
  rw [sum_loop_take _ _ _ _ _ _ (by omega)]

theorem scan_truncate (new_features : FeatureVector) (training_data : TrainingData)
    (min_distance : Binary32) (predicted_label : Label) :
    scan new_features (truncate_features new_features.length training_data)
        min_distance predicted_label =
      scan new_features training_data min_distance predicted_label := by
  induction training_data generalizing min_distance predicted_label with
  | nil => rfl
  | cons p rest ih =>
    simp only [truncate_features, List.map_cons, scan, euclidean_distance_take] at ih ⊢
    cases euclidean_distance new_features p.features with
    | error f => rfl
    | ok d =>
      simp only []
      split_ifs
      · exact ih _ _
      · exact ih _ _

/-- C15: on an input that passes validation and whose data points all have
at least as many features as the query, `predict_label` returns on the
dataset what it returns on the dataset with every feature vector cut to the
query's length; so two such datasets that agree on the labels and on the
first `new_features.length` coordinates of every data point get the same
result. -/
theorem predict_label_truncate (new_features : FeatureVector) (first : DataPoint)
    (rest : TrainingData) (hq : new_features ≠ [])
    (hlen : new_features.length = first.features.length)
    (hlong : ∀ p ∈ first :: rest, new_features.length ≤ p.features.length) :
    predict_label new_features (first :: rest) =
        predict_label new_features (truncate_features new_features.length (first :: rest)) ∧
      ∀ (first' : DataPoint) (rest' : TrainingData),
        new_features.length = first'.features.length →
        truncate_features new_features.length (first' :: rest') =
          truncate_features new_features.length (first :: rest) →
        predict_label new_features (first' :: rest') =
          predict_label new_features (first :: rest) := by
  have h1 : new_features.isEmpty = false := by
    cases new_features with
    | nil => exact absurd rfl hq
    | cons a l => rfl
  have key : ∀ (f : DataPoint) (r : TrainingData),
      new_features.length = f.features.length →
        predict_label new_features (f :: r) =
          scan new_features (truncate_features new_features.length (f :: r))
            Binary32.max_float (-1) := by
    intro f r hf
    have h2 : (new_features.length != f.features.length) = false := by simp [hf]
    simp only [predict_label, h1, h2, Bool.or_self, Bool.false_eq_true, if_false]
    rw [scan_truncate]
  constructor
  · rw [key first rest hlen]
    have h3 : (new_features.length != (first.features.take new_features.length).length) =
        false := by
      simp [hlen]
    simp only [truncate_features, List.map_cons, predict_label, h1, h3, Bool.or_self,
      Bool.false_eq_true, if_false]
  · intro first' rest' hlen' heq
    rw [key first rest hlen, key first' rest' hlen', heq]

/-- C15 at `short_query` and `long_data`, whose second and third data
points have three and four features. -/
theorem predict_label_truncate_witness :
    predict_label short_query long_data =
      predict_label short_query (truncate_features short_query.length long_data) :=
  (predict_label_truncate short_query ⟨[literal 1 1, literal 1 1], 1⟩ _
    (by decide) (by decide) (by decide)).1

/-! ## A query that equals a data point -/

namespace Binary32

theorem sub_self_finite (x : Binary32) (h : isFinite x = true) : sub x x = zero := by
  cases x with
  | nan => simp [isFinite] at h
  | inf s => simp [isFinite] at h
  | finite s m e =>
    cases s <;> simp [sub, neg, add, signed, zero]

/-- A rounded value keeps its sign: it is an infinity or a finite datum of
the sign given. -/
theorem round_shape (s : Bool) (m : Nat) (e : Int) :
    round s m e = inf s ∨ ∃ m1 e1, round s m e = finite s m1 e1 := by
  unfold round
  simp only []
  split_ifs
  all_goals first
    | exact Or.inl rfl
    | exact Or.inr ⟨_, _, rfl⟩

theorem round_nonneg (m : Nat) (e : Int) : lt (round false m e) zero = false := by
  rcases round_shape false m e with h | ⟨m1, e1, h⟩
  · rw [h]
    rfl
  · rw [h]
    simp only [lt, zero, signed, decide_eq_false_iff_not, not_lt]
    simp

/-- No square root is below zero. -/
theorem sqrt_nonneg (x : Binary32) : lt (sqrt x) zero = false := by
  cases x with
  | nan => rfl
  | inf s => cases s <;> rfl
  | finite s m e =>
    simp only [sqrt]
    by_cases hm : m = 0
    · rw [if_pos hm]
      cases s <;> simp [lt, zero, signed]
    · rw [if_neg hm]
      cases s
      · exact round_nonneg _ _
      · rfl

end Binary32

theorem sum_loop_self (new_features : FeatureVector) (remaining i : Nat)
    (hfin : ∀ x ∈ new_features, Binary32.isFinite x = true)
    (h : i + remaining ≤ new_features.length) :
    sum_loop new_features new_features remaining i Binary32.zero = .ok Binary32.zero := by
  induction remaining generalizing i with
  | zero => rfl
  | succ k ih =>
    have hi : i < new_features.length := by omega
    have hx := hfin _ (List.getElem_mem hi)
    simp only [sum_loop, List.getElem?_eq_getElem hi, Binary32.sub_self_finite _ hx]
    have h0 : Binary32.add Binary32.zero (Binary32.mul Binary32.zero Binary32.zero) =
        Binary32.zero := by decide
    rw [h0]
    exact ih (i + 1) (by omega)

/-- A vector of finite coordinates is at distance `0.0f` from itself. -/
theorem euclidean_distance_self (new_features : FeatureVector)
    (hfin : ∀ x ∈ new_features, Binary32.isFinite x = true) :
    euclidean_distance new_features new_features = .ok Binary32.zero := by
  unfold euclidean_distance
  rw [sum_loop_self new_features _ 0 hfin (by omega)]
  rfl

theorem euclidean_distance_nonneg (new_features features : FeatureVector) (d : Binary32)
    (h : euclidean_distance new_features features = .ok d) :
    Binary32.lt d Binary32.zero = false := by
  unfold euclidean_distance at h
  split at h
  · cases h
    exact Binary32.sqrt_nonneg _
  · cases h

/-- C16, as claimed, fails in two ways. On the query `{0.0f}` and the data
points `({1e-30f}, 1)`, `({0.0f}, 2)` the squared difference `1e-60`
underflows to `0`, both distances are `0` and label 1 is returned, while the
first data point equal to the query has label 2. On the query `{+inf}` and
the data point `({+inf}, 5)`, equal to the query, `inf - inf` is NaN, the
distance is NaN and `-1` is returned. -/
theorem predict_label_exact_match_counterexample :
    (tiny_data.map (fun p => decide (p.features = zero_query)) = [false, true] ∧
        tiny_data.map DataPoint.label = [1, 2] ∧
        tiny_data.map (fun p => euclidean_distance zero_query p.features) =
          [.ok Binary32.zero, .ok Binary32.zero] ∧
        predict_label zero_query tiny_data = .ok 1) ∧
      (inf_data = [⟨inf_query, 5⟩] ∧
        euclidean_distance inf_query inf_query = .ok Binary32.nan ∧
        predict_label inf_query inf_data = .ok (-1)) := by
  decide

/-- C16, amended: on a valid input whose query has finite coordinates and
equals the feature vector of at least one data point, every data point
equal to the query is at distance `0`, and `predict_label` returns the
label of the first data point whose distance is `0` (neither below nor
above `0.0f`, and not NaN): every data point before it is at a distance
strictly above, or NaN, and none of them equals the query. -/
theorem predict_label_exact_match (new_features : FeatureVector) (training_data : TrainingData)
    (hquery : new_features ≠ [])
    (hlen : ∀ p ∈ training_data, p.features.length = new_features.length)
    (hfin : ∀ x ∈ new_features, Binary32.isFinite x = true)
    (hmatch : ∃ p ∈ training_data, p.features = new_features) :
    (∀ p ∈ training_data, p.features = new_features →
        euclidean_distance new_features p.features = .ok Binary32.zero) ∧
      ∃ pre p post d, training_data = pre ++ p :: post ∧
        predict_label new_features training_data = .ok p.label ∧
        euclidean_distance new_features p.features = .ok d ∧
        d ≠ Binary32.nan ∧ Binary32.lt d Binary32.zero = false ∧
        Binary32.lt Binary32.zero d = false ∧
        (∀ p' ∈ pre, ∀ d', euclidean_distance new_features p'.features = .ok d' →
          Binary32.lt d d' = true ∨ d' = Binary32.nan) ∧
        ∀ p' ∈ pre, p'.features ≠ new_features := by
  have hself : ∀ p ∈ training_data, p.features = new_features →
      euclidean_distance new_features p.features = .ok Binary32.zero := by
    intro p _ hp
    rw [hp]
    exact euclidean_distance_self new_features hfin
  refine ⟨hself, ?_⟩
  obtain ⟨pm, hpm, hpmq⟩ := hmatch
  have hdata : training_data ≠ [] := List.ne_nil_of_mem hpm
  rcases predict_label_spec new_features training_data hdata hquery hlen with
    ⟨_, hnone⟩ | ⟨pre, p, post, d, hsplit, hd, hmax, hres, hmin, hfirst⟩
  · have h := hnone pm hpm _ (hself pm hpm hpmq)
    exact absurd h (by decide)
  · refine ⟨pre, p, post, d, hsplit, hres, hd, ?_, euclidean_distance_nonneg _ _ _ hd,
      hmin pm hpm _ (hself pm hpm hpmq), hfirst, ?_⟩
    · rintro rfl
      simp [Binary32.lt] at hmax
    · intro p' hp' hq'
      have hp'mem : p' ∈ training_data := by
        rw [hsplit]
        exact List.mem_append_left _ hp'
      rcases hfirst p' hp' _ (hself p' hp'mem hq') with h | h
      · rw [euclidean_distance_nonneg _ _ _ hd] at h
        exact Bool.false_ne_true h
      · exact absurd h (by decide)

/-- C16 amended, at the query `{0.0f}` and the data points `({1e-30f}, 1)`
and `({0.0f}, 2)`. -/
theorem predict_label_exact_match_witness :
    ∃ pre p post d, tiny_data = pre ++ p :: post ∧
      predict_label zero_query tiny_data = .ok p.label ∧
      euclidean_distance zero_query p.features = .ok d ∧
      d ≠ Binary32.nan ∧ Binary32.lt d Binary32.zero = false ∧
      Binary32.lt Binary32.zero d = false ∧
      (∀ p' ∈ pre, ∀ d', euclidean_distance zero_query p'.features = .ok d' →
        Binary32.lt d d' = true ∨ d' = Binary32.nan) ∧
      ∀ p' ∈ pre, p'.features ≠ zero_query :=
  (predict_label_exact_match zero_query tiny_data (by decide) (by decide) (by decide)
    ⟨⟨[literal 0 1], 2⟩, by decide, by decide⟩).2

/-! ## The running minimum -/

/-- C17, as claimed, fails on an input that passes validation and has a
data point shorter than the query: on `short_query` and `ragged_data` the
second data point is read out of range, and neither `-1` nor the label of a
data point is returned. -/
theorem predict_label_running_minimum_counterexample :
    short_query ≠ [] ∧
      (∃ first rest, ragged_data = first :: rest ∧
        short_query.length = first.features.length) ∧
      predict_label short_query ragged_data = .error .out_of_range ∧
      ∀ l : Label, predict_label short_query ragged_data ≠ .ok l := by
  have h : predict_label short_query ragged_data = .error .out_of_range := by decide
  refine ⟨by decide, ⟨_, _, rfl, by decide⟩, h, fun l hl => ?_⟩
  rw [h] at hl
  cases hl

/-- C17, amended: on an input that passes validation and whose data points
all have at least as many features as the query, the scan starts from
`FLT_MAX` and `-1` and, either no data point has a distance strictly below
`FLT_MAX` and `predict_label` returns `-1`, or some data point has and
`predict_label` returns the label of the first data point attaining the
minimum distance: its distance is below `FLT_MAX`, no distance of the
dataset is strictly below it, and every data point before it is at a
distance strictly above it, or NaN. -/
theorem predict_label_running_minimum (new_features : FeatureVector) (first : DataPoint)
    (rest : TrainingData) (hquery : new_features ≠ [])
    (hlen : new_features.length = first.features.length)
    (hlong : ∀ p ∈ first :: rest, new_features.length ≤ p.features.length) :
    predict_label new_features (first :: rest) =
        scan new_features (first :: rest) Binary32.max_float (-1) ∧
      ((predict_label new_features (first :: rest) = .ok (-1) ∧
          ∀ p ∈ first :: rest, ∀ d, euclidean_distance new_features p.features = .ok d →
            Binary32.lt d Binary32.max_float = false) ∨
        ∃ pre p post d, first :: rest = pre ++ p :: post ∧
          euclidean_distance new_features p.features = .ok d ∧
          Binary32.lt d Binary32.max_float = true ∧
          predict_label new_features (first :: rest) = .ok p.label ∧
          (∀ p' ∈ first :: rest, ∀ d',
            euclidean_distance new_features p'.features = .ok d' →
              Binary32.lt d' d = false) ∧
          ∀ p' ∈ pre, ∀ d', euclidean_distance new_features p'.features = .ok d' →
            Binary32.lt d d' = true ∨ d' = Binary32.nan) := by
  have hrun : predict_label new_features (first :: rest) =
      scan new_features (first :: rest) Binary32.max_float (-1) := by
    have h1 : new_features.isEmpty = false := by
      cases new_features with
      | nil => exact absurd rfl hquery
      | cons a l => rfl
    have h2 : (new_features.length != first.features.length) = false := by simp [hlen]
    simp only [predict_label, h1, h2, Bool.or_self, Bool.false_eq_true, if_false]
  refine ⟨hrun, ?_⟩
  rw [hrun]
  exact scan_spec new_features (first :: rest) Binary32.max_float (-1)
    (fun p hp => euclidean_distance_ok _ _ (hlong p hp))

/-- C17 amended, at `short_query` and `long_data`, whose data points have
two, three and four features. -/
theorem predict_label_running_minimum_witness :
    predict_label short_query long_data =
      scan short_query long_data Binary32.max_float (-1) :=
  (predict_label_running_minimum short_query ⟨[literal 1 1, literal 1 1], 1⟩ _
    (by decide) (by decide) (by decide)).1

/-! ## Squared distances -/

theorem euclidean_distance_eq (new_features features : FeatureVector) :
    euclidean_distance new_features features =
      match squared_distance new_features features with
      | .ok a => .ok (Binary32.sqrt a)
      | .error f => .error f := rfl

/-! ## The order of square roots -/

namespace Binary32

theorem bitLength_zero : bitLength 0 = 0 := rfl

theorem bitLength_pos (n : Nat) (h : n ≠ 0) : 1 ≤ bitLength n := by
  have h1 := (bitLength_spec n).1
  by_contra hc
  have h0 : bitLength n = 0 := by omega
  rw [h0] at h1
  omega

/-- The number of binary digits, from both bounds. -/
theorem bitLength_eq (n k : Nat) (h1 : 2 ^ k ≤ n) (h2 : n < 2 ^ (k + 1)) :
    bitLength n = k + 1 := by
  have hn : n ≠ 0 := by
    have : 0 < 2 ^ k := by positivity
    omega
  obtain ⟨h3, h4⟩ := bitLength_spec n
  have h4 := h4 hn
  have hpos := bitLength_pos n hn
  have ha : k < bitLength n := by
    by_contra hc
    have : 2 ^ bitLength n ≤ 2 ^ k := Nat.pow_le_pow_right (by norm_num) (by omega)
    omega
  have hb : bitLength n - 1 < k + 1 := by
    by_contra hc
    have : 2 ^ (k + 1) ≤ 2 ^ (bitLength n - 1) := Nat.pow_le_pow_right (by norm_num) (by omega)
    omega
  omega

theorem bitLength_mono (a b : Nat) (h : a ≤ b) : bitLength a ≤ bitLength b := by
  by_cases ha : a = 0
  · rw [ha, bitLength_zero]
    exact Nat.zero_le _
  · have h1 := (bitLength_spec a).2 ha
    have h2 := (bitLength_spec b).1
    have hpos := bitLength_pos a ha
    by_contra hc
    have : 2 ^ bitLength b ≤ 2 ^ (bitLength a - 1) :=
      Nat.pow_le_pow_right (by norm_num) (by omega)
    omega

/-- A number of at least 25 binary digits is rounded by `rne` and `pack`. -/
theorem round_long (s : Bool) (n : Nat) (e : Int) (h : 25 ≤ bitLength n) :
    round s n e =
      pack s (rne n ((max (e + (bitLength n : Int) - 24) (-149)) - e).toNat)
        (max (e + (bitLength n : Int) - 24) (-149)) := by
  have hn : n ≠ 0 := by
    rintro rfl
    rw [bitLength_zero] at h
    omega
  have hlt : ¬ max (e + (bitLength n : Int) - 24) (-149) ≤ e := by
    have := le_max_left (e + (bitLength n : Int) - 24) (-149)
    omega
  unfold round
  simp only [hn, if_false, hlt, rne, pack]

theorem rne_ge (n sh : Nat) : n / 2 ^ sh ≤ rne n sh := by
  unfold rne
  split_ifs <;> omega

theorem rne_le (n sh : Nat) : rne n sh ≤ n / 2 ^ sh + 1 := by
  unfold rne
  split_ifs <;> omega

/-- Rounding to nearest keeps the order. -/
theorem rne_mono (a b sh : Nat) (h : a ≤ b) : rne a sh ≤ rne b sh := by
  have hq : a / 2 ^ sh ≤ b / 2 ^ sh := Nat.div_le_div_right h
  rcases Nat.lt_or_eq_of_le hq with hlt | heq
  · have h1 := rne_le a sh
    have h2 := rne_ge b sh
    omega
  · have ha := Nat.div_add_mod a (2 ^ sh)
    have hb := Nat.div_add_mod b (2 ^ sh)
    rw [heq] at ha
    have hr : a % 2 ^ sh ≤ b % 2 ^ sh := by omega
    unfold rne
    rw [heq]
    split_ifs with h1 h2 h2
    · exact le_refl _
    · exfalso
      apply h2
      rcases h1 with h1 | ⟨h1, h3⟩
      · left
        omega
      · rcases Nat.lt_or_eq_of_le hr with hr | hr
        · left
          omega
        · right
          exact ⟨by omega, h3⟩
    · omega
    · exact le_refl _

/-- The significand that `round` hands to `pack` is at most `2 ^ 24`, and
at least `2 ^ 23` unless the exponent is the least one. -/
theorem rne_norm (n : Nat) (e : Int) (h : 25 ≤ bitLength n) :
    rne n ((max (e + (bitLength n : Int) - 24) (-149)) - e).toNat ≤ 2 ^ 24 ∧
      (max (e + (bitLength n : Int) - 24) (-149) ≠ -149 →
        2 ^ 23 ≤ rne n ((max (e + (bitLength n : Int) - 24) (-149)) - e).toNat) := by
  have hn : n ≠ 0 := by
    rintro rfl
    rw [bitLength_zero] at h
    omega
  obtain ⟨hL1, hL2⟩ := bitLength_spec n
  have hL2 := hL2 hn
  generalize bitLength n = L at h hL1 hL2
  generalize he1 : max (e + (L : Int) - 24) (-149) = e1
  have hmax1 : e + (L : Int) - 24 ≤ e1 := by rw [← he1]; exact le_max_left _ _
  have hmax3 : e1 = e + (L : Int) - 24 ∨ e1 = -149 := by
    rw [← he1]
    rcases max_choice (e + (L : Int) - 24) (-149) with h | h <;> simp [h]
  have hsh : L ≤ (e1 - e).toNat + 24 := by omega
  have hqlt : n / 2 ^ (e1 - e).toNat < 2 ^ 24 := by
    rw [Nat.div_lt_iff_lt_mul (by positivity)]
    calc n < 2 ^ L := hL1
      _ ≤ 2 ^ ((e1 - e).toNat + 24) := Nat.pow_le_pow_right (by norm_num) hsh
      _ = 2 ^ 24 * 2 ^ (e1 - e).toNat := by rw [pow_add, mul_comm]
  constructor
  · have := rne_le n (e1 - e).toNat
    omega
  · intro hne
    have hsh2 : (e1 - e).toNat + 24 = L := by omega
    have hqge : 2 ^ 23 ≤ n / 2 ^ (e1 - e).toNat := by
      rw [Nat.le_div_iff_mul_le (by positivity)]
      calc 2 ^ 23 * 2 ^ (e1 - e).toNat = 2 ^ (L - 1) := by
            rw [← pow_add]
            congr 1
            omega
        _ ≤ n := hL2
    exact le_trans hqge (rne_ge n _)

theorem lt_inf_left (x : Binary32) : lt (inf false) x = false := by
  cases x <;> rfl

/-- What `pack` returns for a normalised significand `q` at exponent `e1`:
`+inf` from `2 ^ 128` on, and below it a finite datum of value
`q * 2 ^ e1`. -/
theorem pack_spec (q : Nat) (e1 : Int) (h1 : q ≤ 2 ^ 24)
    (h2 : e1 ≠ -149 → 2 ^ 23 ≤ q) :
    ((2 : ℚ) ^ (128 : Int) ≤ (q : ℚ) * 2 ^ e1 → pack false q e1 = inf false) ∧
      ((q : ℚ) * 2 ^ e1 < (2 : ℚ) ^ (128 : Int) →
        ∃ m e, pack false q e1 = finite false m e ∧ fval false m e = (q : ℚ) * 2 ^ e1) := by
  have h2pos : ∀ k : Int, (0 : ℚ) < 2 ^ k := fun k => zpow_pos (by norm_num) k
  by_cases hq : q = 2 ^ 24
  · have hV : (q : ℚ) * 2 ^ e1 = 2 ^ (e1 + 24) := by
      rw [hq, zpow_add₀ (by norm_num : (2 : ℚ) ≠ 0)]
      push_cast
      norm_num
      ring
    rw [hV]
    simp only [pack, hq, if_true]
    constructor
    · intro hle
      have : (128 : Int) ≤ e1 + 24 := (zpow_le_zpow_iff_right₀ (by norm_num)).mp hle
      rw [if_pos (by omega)]
    · intro hlt
      have : e1 + 24 < (128 : Int) := (zpow_lt_zpow_iff_right₀ (by norm_num)).mp hlt
      rw [if_neg (by omega)]
      refine ⟨_, _, rfl, ?_⟩
      simp only [fval, signed, if_false, Bool.false_eq_true]
      rw [show e1 + 24 = (e1 + 1) + 23 by ring,
        zpow_add₀ (by norm_num : (2 : ℚ) ≠ 0) (e1 + 1) 23]
      norm_num
      ring
  · have hqlt : q < 2 ^ 24 := lt_of_le_of_ne h1 hq
    simp only [pack, hq, if_false]
    by_cases hov : 104 < e1
    · rw [if_pos hov]
      refine ⟨fun _ => rfl, fun hlt => ?_⟩
      exfalso
      have hq23 : (2 : ℚ) ^ (23 : Int) ≤ (q : ℚ) := by
        have := h2 (by omega)
        have h3 : ((2 ^ 23 : Nat) : ℚ) ≤ (q : ℚ) := by exact_mod_cast this
        have c : ((2 ^ 23 : Nat) : ℚ) = (2 : ℚ) ^ (23 : Int) := by norm_num
        rw [c] at h3
        exact h3
      have h4 : (2 : ℚ) ^ (105 : Int) ≤ 2 ^ e1 := zpow_le_zpow_right₀ (by norm_num) (by omega)
      have h5 : (2 : ℚ) ^ (128 : Int) = 2 ^ (23 : Int) * 2 ^ (105 : Int) := by
        rw [← zpow_add₀ (by norm_num : (2 : ℚ) ≠ 0)]
        norm_num
      have h6 : (2 : ℚ) ^ (23 : Int) * 2 ^ (105 : Int) ≤ (q : ℚ) * 2 ^ e1 :=
        mul_le_mul hq23 h4 (le_of_lt (h2pos _)) (by positivity)
      rw [h5] at hlt
      exact absurd hlt (not_lt.mpr h6)
    · rw [if_neg hov]
      constructor
      · intro hle
        exfalso
        have hq24 : (q : ℚ) < 2 ^ (24 : Int) := by
          have h3 : (q : ℚ) < ((2 ^ 24 : Nat) : ℚ) := by exact_mod_cast hqlt
          have c : ((2 ^ 24 : Nat) : ℚ) = (2 : ℚ) ^ (24 : Int) := by norm_num
          rw [c] at h3
          exact h3
        have h4 : (2 : ℚ) ^ e1 ≤ 2 ^ (104 : Int) := zpow_le_zpow_right₀ (by norm_num) (by omega)
        have h5 : (2 : ℚ) ^ (128 : Int) = 2 ^ (24 : Int) * 2 ^ (104 : Int) := by
          rw [← zpow_add₀ (by norm_num : (2 : ℚ) ≠ 0)]
          norm_num
        have h6 : (q : ℚ) * 2 ^ e1 < 2 ^ (24 : Int) * 2 ^ (104 : Int) :=
          mul_lt_mul hq24 h4 (h2pos _) (le_of_lt (h2pos _))
        rw [h5] at hle
        exact absurd hle (not_le.mpr h6)
      · intro _
        refine ⟨_, _, rfl, ?_⟩
        simp [fval, signed]

/-- The function `pack` keeps the order of the values it is given. -/
theorem pack_le (q q' : Nat) (e1 e1' : Int) (h1 : q ≤ 2 ^ 24) (h2 : e1 ≠ -149 → 2 ^ 23 ≤ q)
    (h1' : q' ≤ 2 ^ 24) (h2' : e1' ≠ -149 → 2 ^ 23 ≤ q')
    (hle : (q : ℚ) * 2 ^ e1 ≤ (q' : ℚ) * 2 ^ e1') :
    lt (pack false q' e1') (pack false q e1) = false := by
  obtain ⟨ha, hb⟩ := pack_spec q e1 h1 h2
  obtain ⟨ha', hb'⟩ := pack_spec q' e1' h1' h2'
  by_cases hbig : (2 : ℚ) ^ (128 : Int) ≤ (q' : ℚ) * 2 ^ e1'
  · rw [ha' hbig]
    exact lt_inf_left _
  · have hlt' := not_le.mp hbig
    obtain ⟨m', e', hp', hv'⟩ := hb' hlt'
    obtain ⟨m, e, hp, hv⟩ := hb (lt_of_le_of_lt hle hlt')
    rw [hp, hp']
    rw [Bool.eq_false_iff]
    intro hcon
    rw [lt_finite_iff, hv, hv'] at hcon
    exact absurd hcon (not_lt.mpr hle)

/-- At a fixed exponent `round` keeps the order of the significands. -/
theorem round_mono_long (a b : Nat) (e : Int) (hab : a ≤ b) (ha : 25 ≤ bitLength a) :
    lt (round false b e) (round false a e) = false := by
  have hlen := bitLength_mono a b hab
  have hb : 25 ≤ bitLength b := le_trans ha hlen
  rw [round_long false a e ha, round_long false b e hb]
  obtain ⟨na1, na2⟩ := rne_norm a e ha
  obtain ⟨nb1, nb2⟩ := rne_norm b e hb
  apply pack_le _ _ _ _ na1 na2 nb1 nb2
  have hmono : max (e + (bitLength a : Int) - 24) (-149) ≤
      max (e + (bitLength b : Int) - 24) (-149) :=
    max_le_max (by omega) (le_refl _)
  have hlow : (-149 : Int) ≤ max (e + (bitLength a : Int) - 24) (-149) := le_max_right _ _
  generalize max (e + (bitLength a : Int) - 24) (-149) = ea at *
  generalize max (e + (bitLength b : Int) - 24) (-149) = eb at *
  have h2pos : ∀ k : Int, (0 : ℚ) < 2 ^ k := fun k => zpow_pos (by norm_num) k
  rcases eq_or_lt_of_le hmono with heq | hlt
  · subst heq
    have hq := rne_mono a b (ea - e).toNat hab
    have hq' : ((rne a (ea - e).toNat : Nat) : ℚ) ≤ ((rne b (ea - e).toNat : Nat) : ℚ) := by
      exact_mod_cast hq
    exact mul_le_mul_of_nonneg_right hq' (le_of_lt (h2pos _))
  · have hb23 := nb2 (by omega)
    have h1 : ((rne a (ea - e).toNat : Nat) : ℚ) ≤ (2 : ℚ) ^ (24 : Int) := by
      have h3 : ((rne a (ea - e).toNat : Nat) : ℚ) ≤ ((2 ^ 24 : Nat) : ℚ) := by
        exact_mod_cast na1
      have c : ((2 ^ 24 : Nat) : ℚ) = (2 : ℚ) ^ (24 : Int) := by norm_num
      rw [c] at h3
      exact h3
    have h2 : (2 : ℚ) ^ (23 : Int) ≤ ((rne b (eb - e).toNat : Nat) : ℚ) := by
      have h3 : ((2 ^ 23 : Nat) : ℚ) ≤ ((rne b (eb - e).toNat : Nat) : ℚ) := by
        exact_mod_cast hb23
      have c : ((2 ^ 23 : Nat) : ℚ) = (2 : ℚ) ^ (23 : Int) := by norm_num
      rw [c] at h3
      exact h3
    calc ((rne a (ea - e).toNat : Nat) : ℚ) * 2 ^ ea
        ≤ (2 : ℚ) ^ (24 : Int) * 2 ^ ea := mul_le_mul_of_nonneg_right h1 (le_of_lt (h2pos _))
      _ = 2 ^ (24 + ea) := by rw [zpow_add₀ (by norm_num : (2 : ℚ) ≠ 0)]
      _ ≤ 2 ^ (23 + eb) := zpow_le_zpow_right₀ (by norm_num) (by omega)
      _ = (2 : ℚ) ^ (23 : Int) * 2 ^ eb := by rw [zpow_add₀ (by norm_num : (2 : ℚ) ≠ 0)]
      _ ≤ ((rne b (eb - e).toNat : Nat) : ℚ) * 2 ^ eb :=
          mul_le_mul_of_nonneg_right h2 (le_of_lt (h2pos _))

theorem isqrt_mono (a b : Nat) (h : a ≤ b) : isqrt a ≤ isqrt b := by
  have ha := (isqrt_spec a).1
  have hb := (isqrt_spec b).2
  have hlt : isqrt a * isqrt a < (isqrt b + 1) * (isqrt b + 1) := by omega
  have := Nat.mul_self_lt_mul_self_iff.mp hlt
  omega

/-- The number that `sqrt` rounds grows with the scaled significand. -/
theorem sticky_mono (a b : Nat) (h : a ≤ b) : sticky a ≤ sticky b := by
  have hs := isqrt_mono a b h
  have ha := isqrt_spec a
  have hb := isqrt_spec b
  unfold sticky
  rcases Nat.lt_or_eq_of_le hs with hlt | heq
  · split_ifs <;> omega
  · rw [heq] at ha ⊢
    split_ifs with h1 h2 h2
    · omega
    · omega
    · omega
    · omega

theorem isqrt_four (n : Nat) : isqrt (4 * n) = 2 * isqrt n ∨ isqrt (4 * n) = 2 * isqrt n + 1 := by
  obtain ⟨h1, h2⟩ := isqrt_spec n
  obtain ⟨h3, h4⟩ := isqrt_spec (4 * n)
  have hlow : 2 * isqrt n ≤ isqrt (4 * n) := by
    by_contra hc
    have h5 : isqrt (4 * n) + 1 ≤ 2 * isqrt n := by omega
    have h6 := Nat.mul_self_le_mul_self h5
    have h7 : 2 * isqrt n * (2 * isqrt n) = 4 * (isqrt n * isqrt n) := by ring
    omega
  have hup : isqrt (4 * n) ≤ 2 * isqrt n + 1 := by
    by_contra hc
    have h5 : 2 * isqrt n + 2 ≤ isqrt (4 * n) := by omega
    have h6 := Nat.mul_self_le_mul_self h5
    have h7 : (2 * isqrt n + 2) * (2 * isqrt n + 2) = 4 * ((isqrt n + 1) * (isqrt n + 1)) := by
      ring
    omega
  omega

/-- Scaling the significand by 4 doubles the number that `sqrt` rounds,
up to the last bit, which stays set when the root is inexact. -/
theorem sticky_four (n : Nat) :
    sticky (4 * n) = 2 * sticky n ∨
      (sticky n % 2 = 1 ∧ (sticky (4 * n) = 2 * sticky n + 1 ∨
        sticky (4 * n) + 1 = 2 * sticky n)) := by
  obtain ⟨h1, h2⟩ := isqrt_spec n
  obtain ⟨h3, h4⟩ := isqrt_spec (4 * n)
  have hsq : ∀ s : Nat, (2 * s) * (2 * s) = 4 * (s * s) := fun s => by ring
  have hsq1 : ∀ s : Nat, (2 * s + 1) * (2 * s + 1) = 4 * (s * s) + 4 * s + 1 := fun s => by ring
  unfold sticky
  rcases isqrt_four n with h | h
  · rw [h, hsq]
    split_ifs with ha hb hb <;> omega
  · rw [h, hsq1]
    rw [h, hsq1] at h3
    split_ifs with ha hb hb <;> omega

/-- One more bit below the rounding position does not change the rounding
when that bit only records inexactness. -/
theorem rne_double (y y' sh : Nat) (hsh : 2 ≤ sh)
    (h : y' = 2 * y ∨ (y % 2 = 1 ∧ (y' = 2 * y + 1 ∨ y' + 1 = 2 * y))) :
    rne y' (sh + 1) = rne y sh := by
  obtain ⟨k, rfl⟩ : ∃ k, sh = k + 2 := ⟨sh - 2, by omega⟩
  have hP : 2 ^ (k + 2) = 4 * 2 ^ k := by rw [pow_add]; ring
  have hP1 : 2 ^ (k + 2 + 1) = 8 * 2 ^ k := by rw [pow_add, pow_add]; ring
  have hH : 2 ^ (k + 2 - 1) = 2 * 2 ^ k := by
    rw [show k + 2 - 1 = k + 1 by omega, pow_add]
    ring
  have hH1 : 2 ^ (k + 2 + 1 - 1) = 4 * 2 ^ k := by
    rw [show k + 2 + 1 - 1 = k + 2 by omega, pow_add]
    ring
  have hKpos : 0 < 2 ^ k := by positivity
  have hdm := Nat.div_add_mod y (4 * 2 ^ k)
  have hrlt : y % (4 * 2 ^ k) < 4 * 2 ^ k := Nat.mod_lt _ (by omega)
  have hpar : y % 2 = (y % (4 * 2 ^ k)) % 2 := by
    have hd : 2 ∣ 4 * 2 ^ k := ⟨2 * 2 ^ k, by ring⟩
    exact (Nat.mod_mod_of_dvd y hd).symm
  generalize hq : y / (4 * 2 ^ k) = q at hdm
  generalize hr : y % (4 * 2 ^ k) = r at hdm hrlt hpar
  have hmul : 4 * 2 ^ k * q = 4 * (2 ^ k * q) := by ring
  have hmul8 : 8 * 2 ^ k * q = 8 * (2 ^ k * q) := by ring
  have key : ∀ r' : Nat, r' + 8 * 2 ^ k * q = y' → r' < 8 * 2 ^ k →
      y' / (8 * 2 ^ k) = q ∧ y' % (8 * 2 ^ k) = r' := by
    intro r' h1 h2
    exact (Nat.div_mod_unique (by omega)).mpr ⟨h1, h2⟩
  unfold rne
  rw [hP, hP1, hH, hH1, hq, hr]
  rcases h with h | ⟨hodd, h | h⟩
  · obtain ⟨h1, h2⟩ := key (2 * r) (by omega) (by omega)
    rw [h1, h2]
    split_ifs <;> omega
  · obtain ⟨h1, h2⟩ := key (2 * r + 1) (by omega) (by omega)
    rw [h1, h2]
    split_ifs <;> omega
  · obtain ⟨h1, h2⟩ := key (2 * r - 1) (by omega) (by omega)
    rw [h1, h2]
    split_ifs <;> omega

theorem bitLength_double (y y' : Nat) (hy : 2 ≤ y)
    (h : y' = 2 * y ∨ (y % 2 = 1 ∧ (y' = 2 * y + 1 ∨ y' + 1 = 2 * y))) :
    bitLength y' = bitLength y + 1 := by
  obtain ⟨h1, h2⟩ := bitLength_spec y
  have h2 := h2 (by omega)
  have hL : 2 ≤ bitLength y := by
    by_contra hc
    have : 2 ^ bitLength y ≤ 2 ^ 1 := Nat.pow_le_pow_right (by norm_num) (by omega)
    omega
  obtain ⟨k, hk⟩ : ∃ k, bitLength y = k + 2 := ⟨bitLength y - 2, by omega⟩
  rw [hk] at h1 h2 ⊢
  have e1 : 2 ^ (k + 2) = 4 * 2 ^ k := by rw [pow_add]; ring
  have e2 : 2 ^ (k + 2 - 1) = 2 * 2 ^ k := by
    rw [show k + 2 - 1 = k + 1 by omega, pow_add]
    ring
  have e3 : 2 ^ (k + 2 + 1) = 8 * 2 ^ k := by rw [pow_add, pow_add]; ring
  rw [e1] at h1
  rw [e2] at h2
  apply bitLength_eq
  · rw [e1]
    omega
  · rw [e3]
    omega

/-- Scaling the significand of `sqrt` by 4 and lowering the exponent by one
gives the same rounded value. -/
theorem round_sticky_four (n : Nat) (e : Int) (h : 26 ≤ bitLength (sticky n)) :
    round false (sticky (4 * n)) (e - 1) = round false (sticky n) e := by
  have hs4 := sticky_four n
  have hy : 2 ≤ sticky n := by
    by_contra hc
    have : bitLength (sticky n) ≤ bitLength 1 := bitLength_mono _ _ (by omega)
    have h1 : bitLength 1 = 1 := by decide
    omega
  have hbl := bitLength_double (sticky n) (sticky (4 * n)) hy hs4
  rw [round_long false (sticky n) e (by omega),
    round_long false (sticky (4 * n)) (e - 1) (by omega), hbl]
  have he : e - 1 + ((bitLength (sticky n) + 1 : Nat) : Int) - 24 =
      e + (bitLength (sticky n) : Int) - 24 := by
    push_cast
    ring
  rw [he]
  have hmax1 := le_max_left (e + (bitLength (sticky n) : Int) - 24) (-149)
  generalize max (e + (bitLength (sticky n) : Int) - 24) (-149) = e1 at hmax1
  have hsh : (e1 - (e - 1)).toNat = (e1 - e).toNat + 1 := by omega
  rw [hsh, rne_double (sticky n) (sticky (4 * n)) (e1 - e).toNat (by omega) hs4]

theorem bitLength_sticky_four (n : Nat) (h : 26 ≤ bitLength (sticky n)) :
    bitLength (sticky (4 * n)) = bitLength (sticky n) + 1 := by
  have hy : 2 ≤ sticky n := by
    by_contra hc
    have : bitLength (sticky n) ≤ bitLength 1 := bitLength_mono _ _ (by omega)
    have h1 : bitLength 1 = 1 := by decide
    omega
  exact bitLength_double _ _ hy (sticky_four n)

/-- The rounded value of `sqrt` does not depend on how finely the
significand is scaled. -/
theorem round_sticky_scale (n : Nat) (e : Int) (j : Nat) (h : 26 ≤ bitLength (sticky n)) :
    26 ≤ bitLength (sticky (4 ^ j * n)) ∧
      round false (sticky (4 ^ j * n)) (e - j) = round false (sticky n) e := by
  induction j with
  | zero => simpa using h
  | succ j ih =>
    obtain ⟨h1, h2⟩ := ih
    have hmul : 4 ^ (j + 1) * n = 4 * (4 ^ j * n) := by rw [pow_succ]; ring
    rw [hmul]
    constructor
    · rw [bitLength_sticky_four _ h1]
      omega
    · have he : e - ((j + 1 : Nat) : Int) = (e - (j : Int)) - 1 := by
        push_cast
        ring
      rw [he, round_sticky_four _ _ h1, h2]

theorem sqrt_finite_pos (m : Nat) (e : Int) (hm : m ≠ 0) :
    sqrt (finite false m e) = round false (sticky (sqrtM m e)) (sqrtE e) := by
  simp only [sqrt, hm, if_false, Bool.false_eq_true, sticky, sqrtM, sqrtE, decide_eq_true_eq]

/-- The value of a finite datum in the scaling of `sqrt`. -/
theorem fval_sqrtM (m : Nat) (e : Int) :
    fval false m e = (sqrtM m e : ℚ) * 2 ^ (2 * (sqrtE e + 1)) := by
  have h2 : (2 : ℚ) ≠ 0 := by norm_num
  unfold fval signed sqrtM sqrtE
  simp only [Bool.false_eq_true, if_false]
  by_cases ho : e % 2 = 1
  · simp only [ho, if_true]
    have he : 2 * ((e - 1 - 52) / 2 - 1 + 1) = e - 53 := by omega
    rw [he, show e = (e - 53) + 53 by ring, zpow_add₀ h2, show e - 53 + 53 - 53 = e - 53 by ring]
    push_cast
    norm_num
    ring
  · simp only [ho, if_false]
    have he : 2 * ((e - 52) / 2 - 1 + 1) = e - 52 := by omega
    rw [he, show e = (e - 52) + 52 by ring, zpow_add₀ h2, show e - 52 + 52 - 52 = e - 52 by ring]
    push_cast
    norm_num
    ring

theorem scaled_value (n j : Nat) (e : Int) :
    ((4 ^ j * n : Nat) : ℚ) * 2 ^ (2 * (e - (j : Int) + 1)) = (n : ℚ) * 2 ^ (2 * (e + 1)) := by
  have h2 : (2 : ℚ) ≠ 0 := by norm_num
  have h4 : ((4 : ℚ)) ^ j = 2 ^ (2 * (j : Int)) := by
    rw [zpow_mul, zpow_natCast]
    norm_num
  rw [show 2 * (e + 1) = 2 * (e - (j : Int) + 1) + 2 * (j : Int) by ring, zpow_add₀ h2, ← h4]
  push_cast
  ring

theorem sqrtM_ge (m : Nat) (e : Int) (hm : m ≠ 0) : 2 ^ 52 ≤ sqrtM m e := by
  unfold sqrtM
  have hpos : 1 ≤ (if e % 2 = 1 then 2 * m else m) := by
    split_ifs <;> omega
  calc 2 ^ 52 = 1 * 2 ^ 52 := by ring
    _ ≤ _ := Nat.mul_le_mul_right _ hpos

theorem bitLength_sticky_sqrtM (m : Nat) (e : Int) (hm : m ≠ 0) :
    26 ≤ bitLength (sticky (sqrtM m e)) := by
  have h1 := sticky_mono _ _ (sqrtM_ge m e hm)
  have h2 := bitLength_mono _ _ h1
  have h3 : bitLength (sticky (2 ^ 52)) = 28 := by decide
  omega

/-- The square root keeps the order of the positive finite data. -/
theorem sqrt_mono_pos (ma : Nat) (ea : Int) (mb : Nat) (eb : Int) (ha : ma ≠ 0) (hb : mb ≠ 0)
    (h : fval false mb eb ≤ fval false ma ea) :
    lt (sqrt (finite false ma ea)) (sqrt (finite false mb eb)) = false := by
  rw [sqrt_finite_pos ma ea ha, sqrt_finite_pos mb eb hb]
  rw [fval_sqrtM ma ea, fval_sqrtM mb eb] at h
  have hla := bitLength_sticky_sqrtM ma ea ha
  have hlb := bitLength_sticky_sqrtM mb eb hb
  generalize sqrtM ma ea = Ma at *
  generalize sqrtM mb eb = Mb at *
  generalize sqrtE ea = Ea at *
  generalize sqrtE eb = Eb at *
  obtain ⟨ja, jb, hja⟩ : ∃ ja jb : Nat, Ea - (ja : Int) = Eb - (jb : Int) :=
    ⟨(Ea - min Ea Eb).toNat, (Eb - min Ea Eb).toNat, by
      have h1 := min_le_left Ea Eb
      have h2 := min_le_right Ea Eb
      omega⟩
  obtain ⟨la, ra⟩ := round_sticky_scale Ma Ea ja hla
  obtain ⟨lb, rb⟩ := round_sticky_scale Mb Eb jb hlb
  rw [← ra, ← rb, hja]
  apply round_mono_long _ _ _ _ (by omega)
  apply sticky_mono
  rw [← scaled_value Ma ja Ea, ← scaled_value Mb jb Eb, hja] at h
  have hpos : (0 : ℚ) < 2 ^ (2 * (Eb - (jb : Int) + 1)) := zpow_pos (by norm_num) _
  have h' := le_of_mul_le_mul_right h hpos
  exact_mod_cast h'

/-- From not `c < x`, for `x` other than NaN, and `c < y` follows `x < y`. -/
theorem lt_of_not_lt_of_lt (x c y : Binary32) (h1 : lt c x = false) (h2 : lt c y = true)
    (hx : x ≠ nan) : lt x y = true := by
  cases x with
  | nan => exact absurd rfl hx
  | inf sx =>
    cases c with
    | nan => simp [lt] at h2
    | inf sc => cases y <;> cases sx <;> cases sc <;> simp_all [lt]
    | finite sc mc ec => cases y <;> cases sx <;> simp_all [lt]
  | finite sx mx ex =>
    cases y with
    | nan => cases c <;> simp [lt] at h2
    | inf sy =>
      cases c with
      | nan => simp [lt] at h2
      | inf sc => cases sc <;> cases sy <;> simp_all [lt]
      | finite sc mc ec => cases sy <;> simp_all [lt]
    | finite sy my ey =>
      cases c with
      | nan => simp [lt] at h2
      | inf sc => cases sc <;> simp_all [lt]
      | finite sc mc ec =>
        have h3 : ¬ lt (finite sc mc ec) (finite sx mx ex) = true := by simp [h1]
        rw [lt_finite_iff] at h2 h3 ⊢
        exact lt_of_le_of_lt (not_lt.mp h3) h2

theorem sqrt_zero (s : Bool) (e : Int) : sqrt (finite s 0 e) = finite s 0 (-149) := by
  simp [sqrt]

theorem sqrt_pos_ne_nan (m : Nat) (e : Int) (hm : m ≠ 0) : sqrt (finite false m e) ≠ nan := by
  rw [sqrt_finite_pos m e hm]
  rcases round_shape false (sticky (sqrtM m e)) (sqrtE e) with h | ⟨m1, e1, h⟩ <;>
    rw [h] <;> simp

theorem fval_nonneg (m : Nat) (e : Int) : 0 ≤ fval false m e := by
  unfold fval signed
  simp only [Bool.false_eq_true, if_false]
  positivity

theorem fval_eq_zero (m : Nat) (e : Int) (h : fval false m e ≤ 0) : m = 0 := by
  unfold fval signed at h
  simp only [Bool.false_eq_true, if_false] at h
  by_contra hm
  have h1 : (0 : ℚ) < (m : ℚ) := by exact_mod_cast Nat.pos_of_ne_zero hm
  have h2 : (0 : ℚ) < 2 ^ e := zpow_pos (by norm_num) e
  have := mul_pos h1 h2
  push_cast at h
  linarith

/-- The square root keeps the order of the finite data without sign:
from `b ≤ a` follows not `sqrt a < sqrt b`. -/
theorem sqrt_mono (ma : Nat) (ea : Int) (mb : Nat) (eb : Int)
    (h : lt (finite false ma ea) (finite false mb eb) = false) :
    lt (sqrt (finite false ma ea)) (sqrt (finite false mb eb)) = false := by
  have h1 : ¬ lt (finite false ma ea) (finite false mb eb) = true := by simp [h]
  rw [lt_finite_iff, not_lt] at h1
  by_cases hb : mb = 0
  · subst hb
    rw [sqrt_zero]
    exact sqrt_nonneg _
  · by_cases ha : ma = 0
    · subst ha
      have h2 : fval false 0 ea = 0 := by simp [fval, signed]
      rw [h2] at h1
      exact absurd (fval_eq_zero mb eb h1) hb
    · exact sqrt_mono_pos ma ea mb eb ha hb h1

/-- On the data that are not below zero, a strict order of the square
roots is a strict order of the arguments. -/
theorem lt_of_sqrt_lt (x y : Binary32) (hx : nonneg x = true) (hy : nonneg y = true)
    (h : lt (sqrt x) (sqrt y) = true) : lt x y = true := by
  cases x with
  | nan => simp [sqrt, lt] at h
  | inf sx =>
    cases sx
    · rw [show sqrt (inf false) = inf false from rfl, lt_inf_left] at h
      exact absurd h (by simp)
    · simp [nonneg] at hx
  | finite sx mx ex =>
    cases sx
    · cases y with
      | nan =>
        cases hs : sqrt (finite false mx ex) <;> rw [hs] at h <;> simp [sqrt, lt] at h
      | inf sy =>
        cases sy
        · rfl
        · simp [nonneg] at hy
      | finite sy my ey =>
        cases sy
        · by_contra hc
          have hc' : lt (finite false mx ex) (finite false my ey) = false := by simpa using hc
          rw [sqrt_mono mx ex my ey hc'] at h
          exact absurd h (by simp)
        · simp [nonneg] at hy
    · simp [nonneg] at hx

/-- The square root of a finite datum below `FLT_MAX` is below `FLT_MAX`. -/
theorem sqrt_lt_max_float (m : Nat) (e : Int)
    (h : lt (finite false m e) max_float = true) :
    lt (sqrt (finite false m e)) max_float = true := by
  by_cases hm : m = 0
  · subst hm
    rw [sqrt_zero]
    decide
  · have h1 : lt max_float (finite false m e) = false := by
      by_contra hc
      have h2 := lt_transitive _ _ _ h (by simpa using hc)
      rw [lt_irreflexive] at h2
      exact absurd h2 (by simp)
    have h3 := sqrt_mono (2 ^ 24 - 1) 104 m e h1
    have h4 : lt (sqrt (finite false (2 ^ 24 - 1) 104)) max_float = true := by decide
    exact lt_of_not_lt_of_lt _ _ _ h3 h4 (sqrt_pos_ne_nan m e hm)

/-- A binary32 datum without sign that is not below `FLT_MAX` is `FLT_MAX`. -/
theorem eq_max_float (m : Nat) (e : Int) (hv : valid (finite false m e) = true)
    (h : lt (finite false m e) max_float = false) : finite false m e = max_float := by
  simp only [valid, Bool.and_eq_true, Bool.or_eq_true, decide_eq_true_eq] at hv
  obtain ⟨⟨⟨hm, _⟩, he⟩, _⟩ := hv
  have h1 : ¬ lt (finite false m e) max_float = true := by simp [h]
  unfold max_float at h1 ⊢
  rw [lt_finite_iff, not_lt] at h1
  unfold fval signed at h1
  simp only [Bool.false_eq_true, if_false] at h1
  have h2pos : ∀ k : Int, (0 : ℚ) < 2 ^ k := fun k => zpow_pos (by norm_num) k
  have hmq : (m : ℚ) ≤ 2 ^ 24 - 1 := by
    have : m ≤ 2 ^ 24 - 1 := by omega
    have h3 : (m : ℚ) ≤ ((2 ^ 24 - 1 : Nat) : ℚ) := by exact_mod_cast this
    have c : ((2 ^ 24 - 1 : Nat) : ℚ) = 2 ^ 24 - 1 := by norm_num
    rw [c] at h3
    exact h3
  have he104 : e = 104 := by
    by_contra hne
    have hle : e ≤ 103 := by omega
    have h4 : (2 : ℚ) ^ e ≤ 2 ^ (103 : Int) := zpow_le_zpow_right₀ (by norm_num) hle
    have h5 : (2 : ℚ) ^ (104 : Int) = 2 * 2 ^ (103 : Int) := by
      rw [show (104 : Int) = 1 + 103 by norm_num, zpow_add₀ (by norm_num : (2 : ℚ) ≠ 0)]
      norm_num
    have h6 : ((m : Int) : ℚ) * 2 ^ e ≤ (2 ^ 24 - 1) * 2 ^ (103 : Int) := by
      push_cast
      exact mul_le_mul hmq h4 (le_of_lt (h2pos _)) (by norm_num)
    have h7 : (0 : ℚ) < 2 ^ (103 : Int) := h2pos _
    rw [h5] at h1
    push_cast at h1 h6
    norm_num at h1 h6
    nlinarith
  subst he104
  have h8 : ((2 ^ 24 - 1 : Nat) : ℚ) ≤ (m : ℚ) := by
    have h9 := le_of_mul_le_mul_right h1 (h2pos _)
    exact_mod_cast h9
  have : 2 ^ 24 - 1 ≤ m := by exact_mod_cast h8
  have hm' : m = 2 ^ 24 - 1 := by omega
  rw [hm']

theorem nonneg_mul_self (d : Binary32) : nonneg (mul d d) = true := by
  cases d with
  | nan => rfl
  | inf s => cases s <;> rfl
  | finite s m e =>
    have hx : xor s s = false := by cases s <;> rfl
    simp only [mul, hx]
    rcases round_shape false (m * m) (e + e) with h | ⟨m1, e1, h⟩ <;> rw [h] <;> rfl

theorem nonneg_add (x y : Binary32) (hx : nonneg x = true) (hy : nonneg y = true) :
    nonneg (add x y) = true := by
  cases x with
  | nan => cases y <;> rfl
  | inf a =>
    cases y with
    | nan => rfl
    | inf b => cases a <;> cases b <;> simp_all [nonneg, add]
    | finite b m e => cases a <;> simp_all [nonneg, add]
  | finite a m e =>
    cases y with
    | nan => rfl
    | inf b => cases b <;> simp_all [nonneg, add]
    | finite b m' e' =>
      cases a
      · cases b
        · simp only [add, signed, Bool.false_eq_true, if_false]
          split_ifs with hc
          · rfl
          · have hnn : ¬ ((m * 2 ^ (e - min e e').toNat : Nat) : Int) +
                ((m' * 2 ^ (e' - min e e').toNat : Nat) : Int) < 0 := by
              have h1 := Int.ofNat_nonneg (m * 2 ^ (e - min e e').toNat)
              have h2 := Int.ofNat_nonneg (m' * 2 ^ (e' - min e e').toNat)
              omega
            rw [decide_eq_false hnn]
            rcases round_shape false
              (((m * 2 ^ (e - min e e').toNat : Nat) : Int) +
                ((m' * 2 ^ (e' - min e e').toNat : Nat) : Int)).natAbs (min e e') with
              h | ⟨m1, e1, h⟩ <;> rw [h] <;> rfl
        · simp [nonneg] at hy
      · simp [nonneg] at hx

end Binary32

/-! ## The two scans compared -/

/-- What the loop on squared distances returns when every sum is computed:
the initial label when no sum is below the initial minimum, and otherwise
the label of the first data point whose sum is below the initial minimum
and has no sum of the dataset below it. -/
theorem scan_squared_spec (new_features : FeatureVector) (training_data : TrainingData)
    (min_distance : Binary32) (predicted_label : Label)
    (hok : ∀ p ∈ training_data, ∃ d, squared_distance new_features p.features = .ok d) :
    (scan_squared new_features training_data min_distance predicted_label = .ok predicted_label ∧
        ∀ p ∈ training_data, ∀ d, squared_distance new_features p.features = .ok d →
          Binary32.lt d min_distance = false) ∨
      ∃ pre p post d, training_data = pre ++ p :: post ∧
        squared_distance new_features p.features = .ok d ∧
        Binary32.lt d min_distance = true ∧
        scan_squared new_features training_data min_distance predicted_label = .ok p.label ∧
        (∀ p' ∈ training_data, ∀ d', squared_distance new_features p'.features = .ok d' →
          Binary32.lt d' d = false) ∧
        ∀ p' ∈ pre, ∀ d', squared_distance new_features p'.features = .ok d' →
          Binary32.lt d d' = true ∨ d' = Binary32.nan := by
  induction training_data generalizing min_distance predicted_label with
  | nil => exact Or.inl ⟨rfl, by simp⟩
  | cons p rest ih =>
    obtain ⟨d, hd⟩ := hok p (List.mem_cons_self _ _)
    have hrest : ∀ p' ∈ rest, ∃ d, squared_distance new_features p'.features = .ok d :=
      fun p' hp' => hok p' (List.mem_cons_of_mem _ hp')
    by_cases hlt : Binary32.lt d min_distance = true
    · have hscan : scan_squared new_features (p :: rest) min_distance predicted_label =
          scan_squared new_features rest d p.label := by
        simp only [scan_squared, hd, hlt, if_true]
      rw [hscan]
      right
      rcases ih d p.label hrest with ⟨h1, h2⟩ | ⟨pre, p2, post, d2, h1, h2, h3, h4, h5, h6⟩
      · refine ⟨[], p, rest, d, rfl, hd, hlt, h1, ?_, by simp⟩
        intro p' hp' d' hd'
        rcases List.mem_cons.mp hp' with rfl | hp'
        · rw [hd] at hd'
          cases hd'
          exact Binary32.lt_irreflexive d
        · exact h2 p' hp' d' hd'
      · refine ⟨p :: pre, p2, post, d2, by rw [h1]; rfl, h2,
          Binary32.lt_transitive _ _ _ h3 hlt, h4, ?_, ?_⟩
        · intro p' hp' d' hd'
          rcases List.mem_cons.mp hp' with rfl | hp'
          · rw [hd] at hd'
            cases hd'
            by_contra hc
            have h7 := Binary32.lt_transitive _ _ _ h3 (by simpa using hc)
            rw [Binary32.lt_irreflexive] at h7
            exact Bool.false_ne_true h7
          · exact h5 p' hp' d' hd'
        · intro p' hp' d' hd'
          rcases List.mem_cons.mp hp' with rfl | hp'
          · rw [hd] at hd'
            cases hd'
            exact Or.inl h3
          · exact h6 p' hp' d' hd'
    · have hlt : Binary32.lt d min_distance = false := by simpa using hlt
      have hscan : scan_squared new_features (p :: rest) min_distance predicted_label =
          scan_squared new_features rest min_distance predicted_label := by
        simp [scan_squared, hd, hlt]
      rw [hscan]
      rcases ih min_distance predicted_label hrest with
        ⟨h1, h2⟩ | ⟨pre, p2, post, d2, h1, h2, h3, h4, h5, h6⟩
      · left
        refine ⟨h1, ?_⟩
        intro p' hp' d' hd'
        rcases List.mem_cons.mp hp' with rfl | hp'
        · rw [hd] at hd'
          cases hd'
          exact hlt
        · exact h2 p' hp' d' hd'
      · right
        refine ⟨p :: pre, p2, post, d2, by rw [h1]; rfl, h2, h3, h4, ?_, ?_⟩
        · intro p' hp' d' hd'
          rcases List.mem_cons.mp hp' with rfl | hp'
          · rw [hd] at hd'
            cases hd'
            by_contra hc
            have h7 := Binary32.lt_transitive _ _ _ (by simpa using hc) h3
            rw [hlt] at h7
            exact Bool.false_ne_true h7
          · exact h5 p' hp' d' hd'
        · intro p' hp' d' hd'
          rcases List.mem_cons.mp hp' with rfl | hp'
          · rw [hd] at hd'
            cases hd'
            by_cases hn : d = Binary32.nan
            · exact Or.inr hn
            · exact Or.inl (Binary32.lt_of_lt_of_not_lt _ _ _ h3 hlt hn)
          · exact h6 p' hp' d' hd'

theorem sum_loop_nonneg (new_features features : FeatureVector) (remaining i : Nat)
    (distance d : Binary32) (hacc : Binary32.nonneg distance = true)
    (h : sum_loop new_features features remaining i distance = .ok d) :
    Binary32.nonneg d = true := by
  induction remaining generalizing i distance with
  | zero =>
    simp only [sum_loop] at h
    cases h
    exact hacc
  | succ k ih =>
    unfold sum_loop at h
    split at h
    · exact ih _ _ (Binary32.nonneg_add _ _ hacc (Binary32.nonneg_mul_self _)) h
    · cases h

theorem sum_loop_valid (new_features features : FeatureVector) (remaining i : Nat)
    (distance d : Binary32) (hacc : Binary32.valid distance = true)
    (h : sum_loop new_features features remaining i distance = .ok d) :
    Binary32.valid d = true := by
  induction remaining generalizing i distance with
  | zero =>
    simp only [sum_loop] at h
    cases h
    exact hacc
  | succ k ih =>
    unfold sum_loop at h
    split at h
    · exact ih _ _ (Binary32.add_valid _ _) h
    · cases h

/-- A squared distance is a binary32 datum that is not below zero: NaN,
`+inf`, or a finite datum without sign. -/
theorem squared_distance_shape (new_features features : FeatureVector) (a : Binary32)
    (h : squared_distance new_features features = .ok a) :
    Binary32.nonneg a = true ∧ Binary32.valid a = true :=
  ⟨sum_loop_nonneg _ _ _ _ _ _ (by decide) h, sum_loop_valid _ _ _ _ _ _ (by decide) h⟩

theorem euclidean_distance_of_squared (new_features features : FeatureVector) (a : Binary32)
    (h : squared_distance new_features features = .ok a) :
    euclidean_distance new_features features = .ok (Binary32.sqrt a) := by
  rw [euclidean_distance_eq, h]

/-- Two ways to cut a list at an element: the same cut, or one of the two
elements lies before the other. -/
theorem split_compare (pre pre' : List DataPoint) (p p' : DataPoint)
    (post post' : List DataPoint) (h : pre ++ p :: post = pre' ++ p' :: post') :
    (pre' = pre ∧ p' = p) ∨ (∃ mid, pre = pre' ++ p' :: mid) ∨
      ∃ mid, pre' = pre ++ p :: mid := by
  rcases List.append_eq_append_iff.mp h with ⟨a', h1, h2⟩ | ⟨c', h1, h2⟩
  · cases a' with
    | nil =>
      simp only [List.nil_append, List.cons.injEq] at h2
      left
      exact ⟨by simpa using h1, h2.1.symm⟩
    | cons x a'' =>
      simp only [List.cons_append, List.cons.injEq] at h2
      right
      right
      exact ⟨a'', by rw [h1, h2.1]⟩
  · cases c' with
    | nil =>
      simp only [List.nil_append, List.cons.injEq] at h2
      left
      exact ⟨by simpa using h1.symm, h2.1⟩
    | cons x c'' =>
      simp only [List.cons_append, List.cons.injEq] at h2
      right
      left
      exact ⟨c'', by rw [h1, h2.1]⟩

/-- A squared distance below `FLT_MAX` is a finite datum without sign. -/
theorem squared_distance_finite (new_features features : FeatureVector) (a : Binary32)
    (h : squared_distance new_features features = .ok a)
    (hlt : Binary32.lt a Binary32.max_float = true) :
    ∃ m e, a = Binary32.finite false m e := by
  have hn := (squared_distance_shape _ _ _ h).1
  cases a with
  | nan => simp [Binary32.lt] at hlt
  | inf s =>
    cases s
    · exact absurd hlt (by decide)
    · simp [Binary32.nonneg] at hn
  | finite s m e =>
    cases s
    · exact ⟨m, e, rfl⟩
    · simp [Binary32.nonneg] at hn

/-- A squared distance whose root is below `FLT_MAX`, itself not below
`FLT_MAX`, is `FLT_MAX`. -/
theorem squared_distance_max (new_features features : FeatureVector) (a : Binary32)
    (h : squared_distance new_features features = .ok a)
    (hroot : Binary32.lt (Binary32.sqrt a) Binary32.max_float = true)
    (hlt : Binary32.lt a Binary32.max_float = false) : a = Binary32.max_float := by
  obtain ⟨hn, hv⟩ := squared_distance_shape _ _ _ h
  cases a with
  | nan => exact absurd hroot (by decide)
  | inf s =>
    cases s
    · exact absurd hroot (by decide)
    · simp [Binary32.nonneg] at hn
  | finite s m e =>
    cases s
    · exact Binary32.eq_max_float m e hv hlt
    · simp [Binary32.nonneg] at hn

/-- C13, as claimed, fails in two ways. On the query `{0, 0}` and the data
points `({1, 3 * 2^-13}, 1)`, `({1, 0}, 2)` the squared distances are
`1 + 2^-23` and `1`, the square root rounds both to `1`, so `predict_label`
keeps the first point and returns 1, and the variant without the square
root returns 2. On the query `{0, 0}` and the data point
`({2^64 - 2^40, 2^52}, 3)` the squared distance is `FLT_MAX`, which is not
below the initial minimum `FLT_MAX`, so the variant returns `-1`, while the
root is below `FLT_MAX` and `predict_label` returns 3. -/
theorem predict_label_squared_counterexample :
    (close_data.map (fun p => squared_distance origin_query p.features) =
          [.ok (Binary32.ofBits 0x3F800001), .ok (Binary32.ofBits 0x3F800000)] ∧
        close_data.map (fun p => euclidean_distance origin_query p.features) =
          [.ok (Binary32.ofBits 0x3F800000), .ok (Binary32.ofBits 0x3F800000)] ∧
        predict_label origin_query close_data = .ok 1 ∧
        predict_label_squared origin_query close_data = .ok 2) ∧
      (edge_data.map (fun p => squared_distance origin_query p.features) =
          [.ok Binary32.max_float] ∧
        predict_label origin_query edge_data = .ok 3 ∧
        predict_label_squared origin_query edge_data = .ok (-1)) := by
  decide

/-- C13, amended: on every valid input the variant without the square root
and `predict_label` are related as follows. Either no squared distance is
below `FLT_MAX`: the variant returns `-1`, and so does `predict_label`
unless a squared distance is `FLT_MAX` itself. Or the variant returns the
label of the first data point `p` of least squared distance, and
`predict_label` returns the label of the first data point `p1` whose root
is not above the root of `p`: this is `p` or a data point before `p`, with
the same rounded root; so the two return the same label whenever every data
point before `p` has a root strictly above the root of `p`, or NaN. -/
theorem predict_label_squared_agreement (new_features : FeatureVector)
    (training_data : TrainingData) (hdata : training_data ≠ []) (hquery : new_features ≠ [])
    (hlen : ∀ p ∈ training_data, p.features.length = new_features.length) :
    ((∀ p ∈ training_data, ∀ a, squared_distance new_features p.features = .ok a →
          Binary32.lt a Binary32.max_float = false) ∧
        predict_label_squared new_features training_data = .ok (-1) ∧
        ((∀ p ∈ training_data,
            squared_distance new_features p.features ≠ .ok Binary32.max_float) →
          predict_label new_features training_data = .ok (-1))) ∨
      ∃ pre p post a, training_data = pre ++ p :: post ∧
        squared_distance new_features p.features = .ok a ∧
        Binary32.lt a Binary32.max_float = true ∧
        (∀ p' ∈ training_data, ∀ b, squared_distance new_features p'.features = .ok b →
          Binary32.lt b a = false) ∧
        (∀ p' ∈ pre, ∀ b, squared_distance new_features p'.features = .ok b →
          Binary32.lt a b = true ∨ b = Binary32.nan) ∧
        predict_label_squared new_features training_data = .ok p.label ∧
        (∃ pre1 p1 rest b, pre ++ [p] = pre1 ++ p1 :: rest ∧
          squared_distance new_features p1.features = .ok b ∧
          Binary32.lt (Binary32.sqrt a) (Binary32.sqrt b) = false ∧
          Binary32.lt (Binary32.sqrt b) (Binary32.sqrt a) = false ∧
          Binary32.sqrt b ≠ Binary32.nan ∧
          (∀ p' ∈ pre1, ∀ c, squared_distance new_features p'.features = .ok c →
            Binary32.lt (Binary32.sqrt b) (Binary32.sqrt c) = true ∨
              Binary32.sqrt c = Binary32.nan) ∧
          predict_label new_features training_data = .ok p1.label) ∧
        ((∀ p' ∈ pre, ∀ c, squared_distance new_features p'.features = .ok c →
            Binary32.lt (Binary32.sqrt a) (Binary32.sqrt c) = true ∨
              Binary32.sqrt c = Binary32.nan) →
          predict_label new_features training_data =
            predict_label_squared new_features training_data) := by
  have hsq : ∀ p ∈ training_data, ∃ a, squared_distance new_features p.features = .ok a :=
    fun p hp => sum_loop_ok _ _ _ 0 _ (by omega) (by rw [hlen p hp]; omega)
  have hok : ∀ p ∈ training_data, ∃ d, euclidean_distance new_features p.features = .ok d :=
    fun p hp => euclidean_distance_ok _ _ (by rw [hlen p hp])
  have hrun : predict_label new_features training_data =
        scan new_features training_data Binary32.max_float (-1) ∧
      predict_label_squared new_features training_data =
        scan_squared new_features training_data Binary32.max_float (-1) := by
    cases training_data with
    | nil => exact absurd rfl hdata
    | cons first rest =>
      have h1 : new_features.isEmpty = false := by
        cases new_features with
        | nil => exact absurd rfl hquery
        | cons a l => rfl
      have h2 : (new_features.length != first.features.length) = false := by
        simp [hlen first (List.mem_cons_self _ _)]
      simp only [predict_label, predict_label_squared, h1, h2, Bool.or_self,
        Bool.false_eq_true, if_false, and_self]
  obtain ⟨hrun1, hrun2⟩ := hrun
  rw [hrun1, hrun2]
  rcases scan_squared_spec new_features training_data Binary32.max_float (-1) hsq with
    ⟨hv, hnone⟩ | ⟨pre, p, post, a, hsplit, ha, hamax, hvres, hleast, hfirst⟩
  · left
    refine ⟨hnone, hv, fun hne => ?_⟩
    rcases scan_spec new_features training_data Binary32.max_float (-1) hok with
      ⟨h, _⟩ | ⟨pre', p', post', d', hs', hd', hmax', _, _, _⟩
    · exact h
    · exfalso
      have hp' : p' ∈ training_data := by
        rw [hs']
        simp
      obtain ⟨a', ha'⟩ := hsq p' hp'
      rw [euclidean_distance_of_squared _ _ _ ha'] at hd'
      cases hd'
      apply hne p' hp'
      rw [ha', squared_distance_max _ _ _ ha' hmax' (hnone p' hp' a' ha')]
  · right
    have hpD : p ∈ training_data := by
      rw [hsplit]
      simp
    have hshape := (squared_distance_shape _ _ _ ha).1
    obtain ⟨m, e, hae⟩ := squared_distance_finite _ _ _ ha hamax
    have hroot_max : Binary32.lt (Binary32.sqrt a) Binary32.max_float = true := by
      rw [hae] at hamax ⊢
      exact Binary32.sqrt_lt_max_float m e hamax
    have hroot_nan : Binary32.sqrt a ≠ Binary32.nan := by
      intro h
      rw [h] at hroot_max
      exact absurd hroot_max (by decide)
    rcases scan_spec new_features training_data Binary32.max_float (-1) hok with
      ⟨_, hnone'⟩ | ⟨pre', p', post', d', hs', hd', hmax', hres', hmin', hfirst'⟩
    · exfalso
      have h := hnone' p hpD _ (euclidean_distance_of_squared _ _ _ ha)
      rw [hroot_max] at h
      exact absurd h (by simp)
    · have hp'D : p' ∈ training_data := by
        rw [hs']
        simp
      obtain ⟨a', ha'⟩ := hsq p' hp'D
      rw [euclidean_distance_of_squared _ _ _ ha'] at hd'
      cases hd'
      have tie1 : Binary32.lt (Binary32.sqrt a) (Binary32.sqrt a') = false :=
        hmin' p hpD _ (euclidean_distance_of_squared _ _ _ ha)
      have tie2 : Binary32.lt (Binary32.sqrt a') (Binary32.sqrt a) = false := by
        by_contra hc
        have h := Binary32.lt_of_sqrt_lt a' a (squared_distance_shape _ _ _ ha').1 hshape
          (by simpa using hc)
        rw [hleast p' hp'D a' ha'] at h
        exact absurd h (by simp)
      have hnan' : Binary32.sqrt a' ≠ Binary32.nan := by
        intro h
        rw [h] at hmax'
        exact absurd hmax' (by decide)
      have hfirst'' : ∀ p'' ∈ pre', ∀ c, squared_distance new_features p''.features = .ok c →
          Binary32.lt (Binary32.sqrt a') (Binary32.sqrt c) = true ∨
            Binary32.sqrt c = Binary32.nan :=
        fun p'' hp'' c hc => hfirst' p'' hp'' _ (euclidean_distance_of_squared _ _ _ hc)
      have hpos : (pre' = pre ∧ p' = p) ∨ ∃ mid, pre = pre' ++ p' :: mid := by
        rcases split_compare pre pre' p p' post post' (hsplit.symm.trans hs') with
          h | h | ⟨mid, h⟩
        · exact Or.inl h
        · exact Or.inr h
        · exfalso
          have hmem : p ∈ pre' := by
            rw [h]
            simp
          rcases hfirst'' p hmem a ha with h1 | h1
          · rw [tie2] at h1
            exact absurd h1 (by simp)
          · exact hroot_nan h1
      refine ⟨pre, p, post, a, hsplit, ha, hamax, hleast, hfirst, hvres, ?_, ?_⟩
      · rcases hpos with ⟨h1, h2⟩ | ⟨mid, h1⟩
        · refine ⟨pre', p', [], a', ?_, ha', tie1, tie2, hnan', hfirst'', hres'⟩
          rw [h1, h2]
        · refine ⟨pre', p', mid ++ [p], a', ?_, ha', tie1, tie2, hnan', hfirst'', hres'⟩
          rw [h1]
          simp
      · intro hno
        rcases hpos with ⟨_, h2⟩ | ⟨mid, h1⟩
        · rw [hres', hvres, h2]
        · exfalso
          have hmem : p' ∈ pre := by
            rw [h1]
            simp
          rcases hno p' hmem a' ha' with h | h
          · rw [tie1] at h
            exact absurd h (by simp)
          · exact hnan' h

/-- C13 amended, at the query `{0, 0}` and the data points `({1, 0}, 2)`,
`({1, 3 * 2^-13}, 1)`: the two squared distances have the same rounded
root, the first data point has the least squared distance, no data point
comes before it, and both functions return 2. -/
theorem predict_label_squared_agreement_witness :
    predict_label origin_query close_data.reverse =
        predict_label_squared origin_query close_data.reverse ∧
      predict_label_squared origin_query close_data.reverse = .ok 2 := by
  refine ⟨?_, by decide⟩
  have hrev : close_data.reverse =
      [⟨[literal 1 1, literal 0 1], 2⟩, ⟨[literal 1 1, literal 3 8192], 1⟩] := rfl
  rcases predict_label_squared_agreement origin_query close_data.reverse
      (by decide) (by decide) (by decide) with
    ⟨h, _⟩ | ⟨pre, p, post, a, hs, ha, _, hleast, _, _, _, himp⟩
  · exfalso
    have h1 := h ⟨[literal 1 1, literal 0 1], 2⟩ (by decide) (Binary32.ofBits 0x3F800000)
      (by decide)
    exact absurd h1 (by decide)
  · apply himp
    intro p' hp'
    exfalso
    cases pre with
    | nil => simp at hp'
    | cons x pre2 =>
      rw [hrev] at hs
      simp only [List.cons_append, List.cons.injEq] at hs
      obtain ⟨_, hs2⟩ := hs
      cases pre2 with
      | nil =>
        simp only [List.nil_append, List.cons.injEq] at hs2
        obtain ⟨hp, _⟩ := hs2
        rw [← hp] at ha
        have ha2 : squared_distance origin_query
            (⟨[literal 1 1, literal 3 8192], 1⟩ : DataPoint).features =
              .ok (Binary32.ofBits 0x3F800001) := by decide
        rw [ha2] at ha
        cases ha
        have h1 := hleast ⟨[literal 1 1, literal 0 1], 2⟩ (by decide)
          (Binary32.ofBits 0x3F800000) (by decide)
        exact absurd h1 (by decide)
      | cons y pre3 =>
        simp only [List.cons_append, List.cons.injEq] at hs2
        obtain ⟨_, hs3⟩ := hs2
        cases pre3 <;> simp at hs3

end MlMusings
